import Mathlib

/-!
Shallow embedding of the NDCell HashLife engine.

The N-dimensional tree (`src/src/automaton/space/ndtree/mod.rs`) and the
HashLife step driver (`src/core/src/sim/simulation.rs`) are embedded over a
common node type.  A node at layer `L >= 2` owns `2^D` children at layer
`L - 1`, indexed by a bitmask (bit `k` set means "upper half along axis
`k`"); a node at the leaf layer `L = 1` owns `2^D` cells indexed the same
way.  Cell states are natural numbers, state `0` being the empty state.
In the repository nodes are interned in a cache so that identity equals
structural equality; here nodes are plain inductive values compared
structurally, which is the same congruence.
-/

namespace NDCell

/-- Child / cell index inside a node: one bit per axis
(bit `k` set = upper half along axis `k`). -/
abbrev BV (D : Nat) := Fin D → Bool

/-- An arbitrary-precision position vector (`BigVec<D>` in the source). -/
abbrev BigVec (D : Nat) := Fin D → ℤ

/-- A tree node.  `leaf` is a node at layer 1 holding `2^D` cells;
`nonleaf` is a node at a layer `L ≥ 2` holding `2^D` children.
Modelled from the spec for the node layout (`node.rs` is not in the
source tree): "Leaf node (layer = L_leaf): owns a flat sequence of cell
states ...; Non-leaf node: owns an ordered sequence of `BRANCHING_FACTOR`
child pointers", with the leaf layer `L_leaf = 1` (the old crate stores
individual cells as the branches of a layer-1 node). -/
inductive CNode (D : Nat) : Type where
  | leaf (cells : BV D → Nat) : CNode D
  | nonleaf (children : BV D → CNode D) : CNode D

namespace CNode

variable {D : Nat}

/-- The all-lower-halves child index. -/
def lo (D : Nat) : BV D := fun _ => false

/-- The diagonally opposite child index (`branch_idx ^ BRANCH_IDX_BITMASK`). -/
def opp (b : BV D) : BV D := fun k => !(b k)

/-- The layer of a node: a node at layer `L` covers a hypercube of side
`2^L`.  Leaves are at layer 1; a non-leaf node is one layer above its
children (well-formed nodes have all children at equal layer). -/
def layer : CNode D → Nat
  | .leaf _ => 1
  | .nonleaf f => layer (f (lo D)) + 1

/-- Number of nonzero cells beneath a node (`population`). -/
def population : CNode D → Nat
  | .leaf c => ∑ b : BV D, if c b = 0 then 0 else 1
  | .nonleaf f => ∑ b : BV D, population (f b)

/-- Structural depth, used as a termination measure. -/
def depth : CNode D → Nat
  | .leaf _ => 0
  | .nonleaf f => (Finset.univ.sup fun b : BV D => depth (f b)) + 1

/-- The unique empty (all-zero) node at a given layer
(`NdTreeCache::get_empty_node`, modelled from the spec: "`empty(L_leaf)`
is a leaf of all-zero cells; `empty(L)` for `L > L_leaf` is
`intern_node([empty(L−1); 2^D])`"). -/
def emptyNode (D : Nat) : Nat → CNode D
  | 0 => .leaf fun _ => 0
  | 1 => .leaf fun _ => 0
  | l + 2 => .nonleaf fun _ => emptyNode D (l + 1)

/-- Well-formedness: every child of a non-leaf is well-formed and all
children are at the same layer (invariant I3 of the spec). -/
def wf : CNode D → Prop
  | .leaf _ => True
  | .nonleaf f => (∀ b, wf (f b)) ∧ ∀ b, layer (f b) = layer (f (lo D))

/-- Boolean structural equality on nodes. -/
def beqN : CNode D → CNode D → Bool
  | .leaf c, .leaf d => decide (c = d)
  | .nonleaf f, .nonleaf g => decide (∀ b, beqN (f b) (g b) = true)
  | _, _ => false

theorem beqN_iff : ∀ a b : CNode D, beqN a b = true ↔ a = b
  | .leaf c, .leaf d => by
    simp only [beqN, decide_eq_true_eq]
    exact ⟨fun h => h ▸ rfl, fun h => by cases h; rfl⟩
  | .leaf _, .nonleaf _ => by simp [beqN]
  | .nonleaf _, .leaf _ => by simp [beqN]
  | .nonleaf f, .nonleaf g => by
    simp only [beqN, decide_eq_true_eq]
    constructor
    · intro h
      have : f = g := funext fun b => (beqN_iff (f b) (g b)).1 (h b)
      exact this ▸ rfl
    · intro h b
      cases h
      exact (beqN_iff (f b) (f b)).2 rfl

instance : DecidableEq (CNode D) := fun a b =>
  decidable_of_iff (beqN a b = true) (beqN_iff a b)

/-- Cell index selected by a local position inside a leaf (each
coordinate is 0 or 1 for in-range positions). -/
def leafBits (pos : BigVec D) : BV D := fun k => decide (1 ≤ pos k)

/-- Child index selected by a local position inside a non-leaf node:
bit `k` is set when coordinate `k` lies in the upper half, i.e. is at
least the child side length `2^(L-1)`. -/
def childBits (f : BV D → CNode D) (pos : BigVec D) : BV D :=
  fun k => decide ((2:ℤ) ^ layer (f (lo D)) ≤ pos k)

/-- The local position within the child selected by `childBits`. -/
def subPos (f : BV D → CNode D) (pos : BigVec D) : BigVec D :=
  fun k => pos k - if (2:ℤ) ^ layer (f (lo D)) ≤ pos k then (2:ℤ) ^ layer (f (lo D)) else 0

/-- The cell at a position local to a node (the node covers
`[0, 2^layer)^D`).  At each non-leaf level the child is selected by
comparing each coordinate with half the node's side length; at a leaf
the `2^D` cells are indexed directly.  Modelled from the spec
(`NdTreeSlice::get_cell` and the node internals are not in the source
tree): a node at layer L covers a hypercube of side `2^L`, child bit `k`
set means upper half along axis `k`. -/
def getCellNode : CNode D → BigVec D → Nat
  | .leaf c, pos => c (leafBits pos)
  | .nonleaf f, pos => getCellNode (f (childBits f pos)) (subPos f pos)

/-- Path-copying update of the cell at a local position
(`NdTreeNode::set_cell`, modelled from the spec: "rebuilds the root by
path-copying from root to the affected leaf, reinterning each node on
the way up"). -/
def setCellNode : CNode D → BigVec D → Nat → CNode D
  | .leaf c, pos, v =>
    .leaf fun j => if j = leafBits pos then v else c j
  | .nonleaf f, pos, v =>
    .nonleaf fun j =>
      if j = childBits f pos then setCellNode (f (childBits f pos)) (subPos f pos) v
      else f j

/-- The centered inner node: the node one layer down occupying the
geometric center, i.e. for each child index `b`, the diagonally opposite
element of child `b` (`NdTreeNode::get_inner_node` /
`NodeRef::centered_inner`; modelled from the spec: "the node at layer
L−1 formed by the inner `2^D` grandchildren".  `none` on a leaf, whose
inner node would be below the minimum layer). -/
def innerCell (f : BV D → CNode D) (b : BV D) : Nat :=
  match f b with
  | .leaf c => c (opp b)
  | .nonleaf _ => 0

def innerChild (f : BV D → CNode D) (b : BV D) : CNode D :=
  match f b with
  | .nonleaf g => g (opp b)
  | .leaf _ => emptyNode D 1

def centeredInner : CNode D → Option (CNode D)
  | .leaf _ => none
  | .nonleaf f =>
    match f (lo D) with
    | .leaf _ => some (.leaf (innerCell f))
    | .nonleaf _ => some (.nonleaf (innerChild f))

theorem layer_pos : ∀ n : CNode D, 1 ≤ layer n
  | .leaf _ => le_refl 1
  | .nonleaf f => by
    have := layer_pos (f (lo D))
    simp only [layer]
    omega

theorem layer_emptyNode (D : Nat) : ∀ l, layer (emptyNode D l) = max 1 l
  | 0 => rfl
  | 1 => rfl
  | l + 2 => by
    simp only [emptyNode, layer, layer_emptyNode D (l + 1)]
    omega

theorem depth_lt_of_child {f : BV D → CNode D} (b : BV D) :
    depth (f b) < depth (.nonleaf f) := by
  simp only [depth]
  exact Nat.lt_succ_of_le (Finset.le_sup (f := fun b => depth (f b)) (Finset.mem_univ b))

theorem depth_centeredInner {n m : CNode D} (h : centeredInner n = some m) :
    depth m < depth n := by
  cases n with
  | leaf c => simp [centeredInner] at h
  | nonleaf f =>
    cases hlo : f (lo D) with
    | leaf c0 =>
      simp only [centeredInner, hlo] at h
      cases h
      simp only [depth]
      omega
    | nonleaf g0 =>
      simp only [centeredInner, hlo] at h
      cases h
      have hn2 : 2 ≤ depth (CNode.nonleaf f) := by
        have h1 : depth (f (lo D)) < depth (CNode.nonleaf f) := depth_lt_of_child _
        rw [hlo] at h1
        have : 1 ≤ depth (CNode.nonleaf g0) := by
          simp only [depth]; omega
        omega
      have hsel : ∀ b, depth (innerChild f b) + 2 ≤ depth (CNode.nonleaf f) := by
        intro b
        have hb : depth (f b) < depth (CNode.nonleaf f) := depth_lt_of_child b
        cases hfb : f b with
        | leaf c =>
          have h0 : depth (innerChild f b) = 0 := by
            simp [innerChild, hfb, emptyNode, depth]
          omega
        | nonleaf g =>
          have : depth (g (opp b)) < depth (CNode.nonleaf g) := depth_lt_of_child _
          rw [hfb] at hb
          simp only [innerChild, hfb]
          omega
      have hsup : (Finset.univ.sup fun b : BV D => depth (innerChild f b)) + 2 ≤
          depth (CNode.nonleaf f) := by
        rcases Nat.eq_zero_or_pos (Fintype.card (BV D)) with hc | hc
        · have : IsEmpty (BV D) := Fintype.card_eq_zero_iff.mp hc
          rw [Finset.univ_eq_empty, Finset.sup_empty]
          exact hn2
        · refine Nat.add_le_of_le_sub ?_ (Finset.sup_le fun b _ => ?_)
          · omega
          · exact Nat.le_sub_of_add_le (hsel b)
      calc depth (CNode.nonleaf (innerChild f))
          = (Finset.univ.sup fun b : BV D => depth (innerChild f b)) + 1 := rfl
        _ < depth (CNode.nonleaf f) := by omega

/-- One "zoom out" step on the root node: each child `b` of the old root
becomes the diagonally opposite child (index `!b`) of a fresh node whose
other children are empty; those wrapping nodes are the children of the
new root (`NdTree::expand`, lines 92–115 of `ndtree/mod.rs`; the layer-1
case wraps the individual cells of a layer-1 root the same way). -/
def wrapCell (c : BV D → Nat) (b : BV D) : CNode D :=
  .leaf fun j => if j = opp b then c b else 0

def wrapChild (f : BV D → CNode D) (b : BV D) : CNode D :=
  .nonleaf fun j => if j = opp b then f b else emptyNode D (layer (f b))

def expandRoot : CNode D → CNode D
  | .leaf c => .nonleaf (wrapCell c)
  | .nonleaf f => .nonleaf (wrapChild f)

theorem layer_expandRoot (n : CNode D) : layer (expandRoot n) = layer n + 1 := by
  cases n with
  | leaf c => rfl
  | nonleaf f =>
    have h2 : layer (if (lo D) = opp (lo D) then f (lo D)
        else emptyNode D (layer (f (lo D)))) = layer (f (lo D)) := by
      split
      · rfl
      · rw [layer_emptyNode]
        have := layer_pos (f (lo D))
        omega
    simp only [expandRoot, layer, h2]

/-- Positions local to a node at layer `L` (the node covers `[0, 2^L)^D`). -/
def inR (L : Nat) (pos : BigVec D) : Prop := ∀ k, 0 ≤ pos k ∧ pos k < 2 ^ L

theorem population_emptyNode (D : Nat) : ∀ l, population (emptyNode D l) = 0
  | 0 => by simp [emptyNode, population]
  | 1 => by simp [emptyNode, population]
  | l + 2 => by simp [emptyNode, population, population_emptyNode D (l + 1)]

theorem wf_emptyNode (D : Nat) : ∀ l, wf (emptyNode D l)
  | 0 => trivial
  | 1 => trivial
  | l + 2 => ⟨fun _ => wf_emptyNode D (l + 1), fun _ => rfl⟩

theorem getCellNode_of_population_zero :
    ∀ (n : CNode D), population n = 0 → ∀ pos, getCellNode n pos = 0
  | .leaf c, hp, pos => by
    simp only [population, Finset.sum_eq_zero_iff, Finset.mem_univ, true_implies] at hp
    have := hp (leafBits pos)
    simp only [getCellNode]
    by_contra hc
    simp [hc] at this
  | .nonleaf f, hp, pos => by
    simp only [population, Finset.sum_eq_zero_iff, Finset.mem_univ, true_implies] at hp
    simp only [getCellNode]
    exact getCellNode_of_population_zero _ (hp _) _

theorem layer_setCellNode : ∀ (n : CNode D) (pos : BigVec D) (v : Nat),
    layer (setCellNode n pos v) = layer n
  | .leaf _, _, _ => rfl
  | .nonleaf f, pos, v => by
    have hc : ∀ i, layer (if i = childBits f pos
        then setCellNode (f (childBits f pos)) (subPos f pos) v else f i) = layer (f i) := by
      intro i
      split
      · next heq => rw [← heq, layer_setCellNode]
      · rfl
    simp only [setCellNode, layer, hc]

theorem wf_setCellNode : ∀ (n : CNode D), wf n → ∀ (pos : BigVec D) (v : Nat),
    wf (setCellNode n pos v)
  | .leaf _, _, _, _ => trivial
  | .nonleaf f, hwf, pos, v => by
    obtain ⟨hwfc, hlay⟩ := hwf
    have hc : ∀ i, layer (if i = childBits f pos
        then setCellNode (f (childBits f pos)) (subPos f pos) v else f i) = layer (f i) := by
      intro i
      split
      · next heq => rw [← heq, layer_setCellNode]
      · rfl
    constructor
    · intro j
      dsimp only
      split
      · exact wf_setCellNode _ (hwfc _) _ _
      · exact hwfc j
    · intro j
      rw [hc, hc, hlay]

theorem childBits_congr {f g : BV D → CNode D}
    (h : layer (g (lo D)) = layer (f (lo D))) : childBits g = childBits f := by
  funext pos k
  simp only [childBits, h]

theorem subPos_congr {f g : BV D → CNode D}
    (h : layer (g (lo D)) = layer (f (lo D))) : subPos g = subPos f := by
  funext pos k
  simp only [subPos, h]

theorem layer_setCell_children {f : BV D → CNode D} {pos : BigVec D} {v : Nat} :
    ∀ i, layer (if i = childBits f pos
      then setCellNode (f (childBits f pos)) (subPos f pos) v else f i) = layer (f i) := by
  intro i
  split
  · next heq => rw [← heq, layer_setCellNode]
  · rfl

theorem inR_subPos {f : BV D → CNode D} {pos : BigVec D}
    (h : inR (layer (.nonleaf f)) pos) : inR (layer (f (lo D))) (subPos f pos) := by
  intro k
  have hk := h k
  simp only [layer, pow_succ] at hk
  have hpow : (0:ℤ) < 2 ^ layer (f (lo D)) := by positivity
  simp only [subPos]
  split <;> omega

theorem leafBits_inj {pos q : BigVec D} (hp : inR 1 pos) (hq : inR 1 q)
    (h : leafBits q = leafBits pos) : q = pos := by
  funext k
  have h1 := congrFun h k
  simp only [leafBits, decide_eq_decide] at h1
  have hk1 := hp k
  have hk2 := hq k
  norm_num at hk1 hk2
  omega

theorem childBits_subPos_inj {f : BV D → CNode D} {pos q : BigVec D}
    (hb : childBits f q = childBits f pos) (hs : subPos f q = subPos f pos) : q = pos := by
  funext k
  have h1 := congrFun hb k
  have h2 := congrFun hs k
  simp only [childBits, decide_eq_decide] at h1
  simp only [subPos] at h2
  by_cases hc : (2:ℤ) ^ layer (f (lo D)) ≤ pos k
  · rw [if_pos hc, if_pos (h1.mpr hc)] at h2
    omega
  · rw [if_neg hc, if_neg (fun hx => hc (h1.mp hx))] at h2
    omega

theorem getCellNode_setCellNode_self :
    ∀ (n : CNode D), wf n → ∀ (pos : BigVec D) (v : Nat), inR (layer n) pos →
      getCellNode (setCellNode n pos v) pos = v
  | .leaf c, _, pos, v, _ => by
    simp [setCellNode, getCellNode]
  | .nonleaf f, hwf, pos, v, hin => by
    obtain ⟨hwfc, hlay⟩ := hwf
    have hcb : childBits (fun j => if j = childBits f pos
        then setCellNode (f (childBits f pos)) (subPos f pos) v else f j) = childBits f :=
      childBits_congr (layer_setCell_children (lo D))
    have hsp : subPos (fun j => if j = childBits f pos
        then setCellNode (f (childBits f pos)) (subPos f pos) v else f j) = subPos f :=
      subPos_congr (layer_setCell_children (lo D))
    simp only [setCellNode, getCellNode, hcb, hsp, if_pos rfl]
    have hsub : inR (layer (f (childBits f pos))) (subPos f pos) := by
      rw [hlay]
      exact inR_subPos hin
    exact getCellNode_setCellNode_self _ (hwfc _) _ v hsub

theorem getCellNode_setCellNode_of_ne :
    ∀ (n : CNode D), wf n → ∀ (pos q : BigVec D) (v : Nat), inR (layer n) pos →
      inR (layer n) q → q ≠ pos →
      getCellNode (setCellNode n pos v) q = getCellNode n q
  | .leaf c, _, pos, q, v, hp, hq, hne => by
    simp only [setCellNode, getCellNode]
    rw [if_neg fun hx => hne (leafBits_inj hp hq hx)]
  | .nonleaf f, hwf, pos, q, v, hp, hq, hne => by
    obtain ⟨hwfc, hlay⟩ := hwf
    have hcb : childBits (fun j => if j = childBits f pos
        then setCellNode (f (childBits f pos)) (subPos f pos) v else f j) = childBits f :=
      childBits_congr (layer_setCell_children (lo D))
    have hsp : subPos (fun j => if j = childBits f pos
        then setCellNode (f (childBits f pos)) (subPos f pos) v else f j) = subPos f :=
      subPos_congr (layer_setCell_children (lo D))
    simp only [setCellNode, getCellNode, hcb, hsp]
    by_cases hbq : childBits f q = childBits f pos
    · rw [hbq, if_pos rfl]
      have hsubp : inR (layer (f (childBits f pos))) (subPos f pos) := by
        rw [hlay]; exact inR_subPos hp
      have hsubq : inR (layer (f (childBits f pos))) (subPos f q) := by
        rw [hlay]; exact inR_subPos hq
      have hne2 : subPos f q ≠ subPos f pos := fun hx =>
        hne (childBits_subPos_inj hbq hx)
      exact getCellNode_setCellNode_of_ne _ (hwfc _) _ _ v hsubp hsubq hne2
    · rw [if_neg hbq]

theorem getCellNode_emptyNode (l : Nat) (pos : BigVec D) :
    getCellNode (emptyNode D l) pos = 0 :=
  getCellNode_of_population_zero _ (population_emptyNode D l) _

theorem population_expandRoot : ∀ n : CNode D, population (expandRoot n) = population n
  | .leaf c => by
    simp only [expandRoot, population]
    have hterm : ∀ b j : BV D,
        (if (if j = opp b then c b else 0) = 0 then 0 else 1) =
          if j = opp b then (if c b = 0 then 0 else 1) else 0 := by
      intro b j
      by_cases h : j = opp b <;> simp [h]
    calc ∑ b : BV D, ∑ j : BV D, (if (if j = opp b then c b else 0) = 0 then 0 else 1)
        = ∑ b : BV D, ∑ j : BV D, (if j = opp b then (if c b = 0 then 0 else 1) else 0) := by
          simp only [hterm]
      _ = ∑ b : BV D, (if c b = 0 then 0 else 1) := by
          simp [Finset.sum_ite_eq']
  | .nonleaf f => by
    simp only [expandRoot, population]
    have hterm : ∀ b j : BV D,
        population (if j = opp b then f b else emptyNode D (layer (f b))) =
          if j = opp b then population (f b) else 0 := by
      intro b j
      by_cases h : j = opp b <;> simp [h, population_emptyNode]
    calc ∑ b : BV D, ∑ j : BV D,
          population (if j = opp b then f b else emptyNode D (layer (f b)))
        = ∑ b : BV D, ∑ j : BV D, (if j = opp b then population (f b) else 0) := by
          simp only [hterm]
      _ = ∑ b : BV D, population (f b) := by
          simp [Finset.sum_ite_eq']

theorem layer_wrap_child {f : BV D → CNode D} (b : BV D) :
    ∀ j, layer (if j = opp b then f b else emptyNode D (layer (f b))) = layer (f b) := by
  intro j
  split
  · rfl
  · rw [layer_emptyNode]
    have := layer_pos (f b)
    omega

theorem wf_expandRoot : ∀ n : CNode D, wf n → wf (expandRoot n)
  | .leaf _, _ => ⟨fun _ => trivial, fun _ => rfl⟩
  | .nonleaf f, ⟨hwfc, hlay⟩ => by
    refine ⟨fun b => ⟨fun j => ?_, fun j => ?_⟩, fun b => ?_⟩
    · dsimp only
      split
      · exact hwfc b
      · exact wf_emptyNode D _
    · rw [layer_wrap_child b, layer_wrap_child b]
    · show layer (CNode.nonleaf _) = layer (CNode.nonleaf _)
      simp only [layer, layer_wrap_child]
      rw [hlay]

theorem getCellNode_leaf (c : BV D → Nat) (pos : BigVec D) :
    getCellNode (.leaf c) pos = c (leafBits pos) := rfl

theorem getCellNode_nonleaf (f : BV D → CNode D) (pos : BigVec D) :
    getCellNode (.nonleaf f) pos = getCellNode (f (childBits f pos)) (subPos f pos) := rfl

theorem getCellNode_wrapCell (c : BV D → Nat) (b : BV D) (q : BigVec D) :
    getCellNode (wrapCell c b) q = if leafBits q = opp b then c b else 0 := rfl

/-- Content of an expanded root: the center (from a quarter to three
quarters of the new side length along every axis) holds the old node's
cells shifted by a quarter of the new side length; everything else is
empty. -/
theorem getCellNode_expandRoot (n : CNode D) (hwf : wf n) {m : Nat}
    (hm : layer n = m + 1) (pos : BigVec D) :
    getCellNode (expandRoot n) pos =
      if ∀ k, (2:ℤ) ^ m ≤ pos k ∧ pos k < 3 * 2 ^ m
      then getCellNode n (fun k => pos k - 2 ^ m) else 0 := by
  cases n with
  | leaf c =>
    have hm0 : m = 0 := by
      have : (1:Nat) = m + 1 := hm
      omega
    subst hm0
    have hlw : layer (wrapCell c (lo D)) = 1 := rfl
    have hB1 : childBits (wrapCell c) pos = fun k => decide ((2:ℤ) ≤ pos k) := by
      funext k
      simp [childBits, hlw]
    have hP1 : subPos (wrapCell c) pos =
        fun k => pos k - if (2:ℤ) ≤ pos k then 2 else 0 := by
      funext k
      simp [subPos, hlw]
    rw [show expandRoot (CNode.leaf c) = CNode.nonleaf (wrapCell c) from rfl,
      getCellNode_nonleaf, hB1, hP1, getCellNode_wrapCell]
    by_cases hc : ∀ k, (2:ℤ) ^ 0 ≤ pos k ∧ pos k < 3 * 2 ^ 0
    · rw [if_pos hc]
      have hc' : ∀ k, (1:ℤ) ≤ pos k ∧ pos k < 3 := by
        intro k
        have := hc k
        norm_num at this
        exact this
      have hedge : leafBits (fun k => pos k - if (2:ℤ) ≤ pos k then 2 else 0) =
          opp fun k => decide ((2:ℤ) ≤ pos k) := by
        funext k
        have hk := hc' k
        simp only [leafBits, opp, ← decide_not]
        rw [decide_eq_decide]
        split_ifs with h2 <;> omega
      rw [hedge, if_pos rfl, getCellNode_leaf]
      congr 1
      funext k
      have hk := hc' k
      simp only [leafBits, pow_zero]
      rw [decide_eq_decide]
      omega
    · rw [if_neg hc]
      push_neg at hc
      obtain ⟨k0, hk0⟩ := hc
      simp only [pow_zero] at hk0
      have hne : leafBits (fun k => pos k - if (2:ℤ) ≤ pos k then 2 else 0) ≠
          opp fun k => decide ((2:ℤ) ≤ pos k) := by
        intro heq
        have h0 := congrFun heq k0
        simp only [leafBits, opp, ← decide_not] at h0
        rw [decide_eq_decide] at h0
        split_ifs at h0 with h2
        · have := hk0 (by omega)
          omega
        · have hlt : pos k0 < 1 := by
            by_contra hge
            have := hk0 (by omega)
            omega
          omega
      rw [if_neg hne]
  | nonleaf f =>
    obtain ⟨hwfc, hlay⟩ := hwf
    have hml : layer (f (lo D)) = m := by
      have : layer (f (lo D)) + 1 = m + 1 := hm
      omega
    have hpow : (0:ℤ) < 2 ^ m := by positivity
    have hp2 : (2:ℤ) ^ (m + 1) = 2 ^ m * 2 := pow_succ 2 m
    have hlw : layer (wrapChild f (lo D)) = m + 1 := by
      show layer (CNode.nonleaf _) = m + 1
      simp only [layer]
      rw [layer_wrap_child (lo D) (lo D), hml]
    have hB1 : childBits (wrapChild f) pos =
        fun k => decide ((2:ℤ) ^ (m + 1) ≤ pos k) := by
      funext k
      simp [childBits, hlw]
    have hP1 : subPos (wrapChild f) pos =
        fun k => pos k - if (2:ℤ) ^ (m + 1) ≤ pos k then (2:ℤ) ^ (m + 1) else 0 := by
      funext k
      simp [subPos, hlw]
    set B1 : BV D := fun k => decide ((2:ℤ) ^ (m + 1) ≤ pos k) with hB1def
    set P1 : BigVec D :=
      fun k => pos k - if (2:ℤ) ^ (m + 1) ≤ pos k then (2:ℤ) ^ (m + 1) else 0 with hP1def
    have hVlo : layer ((fun j => if j = opp B1 then f B1 else emptyNode D (layer (f B1)))
        (lo D)) = m := by
      rw [layer_wrap_child B1 (lo D), hlay B1, hml]
    have hB2 : childBits (fun j => if j = opp B1 then f B1 else emptyNode D (layer (f B1)))
        P1 = fun k => decide ((2:ℤ) ^ m ≤ P1 k) := by
      funext k
      simp only [childBits, hVlo]
    have hP2 : subPos (fun j => if j = opp B1 then f B1 else emptyNode D (layer (f B1)))
        P1 = fun k => P1 k - if (2:ℤ) ^ m ≤ P1 k then (2:ℤ) ^ m else 0 := by
      funext k
      simp only [subPos, hVlo]
    set B2 : BV D := fun k => decide ((2:ℤ) ^ m ≤ P1 k) with hB2def
    set P2 : BigVec D := fun k => P1 k - if (2:ℤ) ^ m ≤ P1 k then (2:ℤ) ^ m else 0
      with hP2def
    have emain : getCellNode (expandRoot (CNode.nonleaf f)) pos =
        getCellNode (if B2 = opp B1 then f B1 else emptyNode D (layer (f B1))) P2 := by
      rw [show expandRoot (CNode.nonleaf f) = CNode.nonleaf (wrapChild f) from rfl,
        getCellNode_nonleaf, hB1, hP1]
      rw [show wrapChild f B1 = CNode.nonleaf (fun j =>
        if j = opp B1 then f B1 else emptyNode D (layer (f B1))) from rfl,
        getCellNode_nonleaf]
      simp only [hB2, hP2]
    rw [emain]
    by_cases hc : ∀ k, (2:ℤ) ^ m ≤ pos k ∧ pos k < 3 * 2 ^ m
    · rw [if_pos hc]
      have hBB : B2 = opp B1 := by
        funext k
        have hk := hc k
        simp only [hB2def, hB1def, hP1def, opp, ← decide_not]
        rw [decide_eq_decide]
        split_ifs with h2 <;> omega
      rw [if_pos hBB, getCellNode_nonleaf]
      have hB1' : childBits f (fun k => pos k - 2 ^ m) = B1 := by
        funext k
        simp only [childBits, hml, hB1def]
        rw [decide_eq_decide]
        omega
      have hP2' : subPos f (fun k => pos k - 2 ^ m) = P2 := by
        funext k
        have hk := hc k
        simp only [subPos, hml, hP2def, hP1def]
        split_ifs <;> omega
      rw [hB1', hP2']
    · rw [if_neg hc]
      push_neg at hc
      obtain ⟨k0, hk0⟩ := hc
      have hne : B2 ≠ opp B1 := by
        intro heq
        have h0 := congrFun heq k0
        simp only [hB2def, hB1def, hP1def, opp, ← decide_not] at h0
        rw [decide_eq_decide] at h0
        split_ifs at h0 with h2
        · have := hk0 (by omega)
          omega
        · by_cases hge : (2:ℤ) ^ m ≤ pos k0
          · have := hk0 hge
            omega
          · omega
      rw [if_neg hne, getCellNode_emptyNode]

theorem layer_one_leaf : ∀ n : CNode D, layer n = 1 → ∃ c, n = .leaf c
  | .leaf c, _ => ⟨c, rfl⟩
  | .nonleaf f, h => by
    exfalso
    have := layer_pos (f (lo D))
    simp only [layer] at h
    omega

theorem layer_ge_two_nonleaf : ∀ n : CNode D, 2 ≤ layer n → ∃ f, n = .nonleaf f
  | .leaf _, h => by
    exfalso
    simp only [layer] at h
    omega
  | .nonleaf f, _ => ⟨f, rfl⟩

theorem wf_children_nonleaf {f : BV D → CNode D} (hwf : wf (.nonleaf f)) {g0 : BV D → CNode D}
    (hlo : f (lo D) = .nonleaf g0) : ∀ b, ∃ g, f b = CNode.nonleaf g := by
  intro b
  obtain ⟨hwfc, hlay⟩ := hwf
  refine layer_ge_two_nonleaf (f b) ?_
  rw [hlay b, hlo]
  have := layer_pos (g0 (lo D))
  simp only [layer]
  omega

theorem wf_children_leaf {f : BV D → CNode D} (hwf : wf (.nonleaf f)) {c0 : BV D → Nat}
    (hlo : f (lo D) = .leaf c0) : ∀ b, ∃ c, f b = CNode.leaf c := by
  intro b
  obtain ⟨hwfc, hlay⟩ := hwf
  refine layer_one_leaf (f b) ?_
  rw [hlay b, hlo]
  rfl

theorem wf_layer_centeredInner : ∀ (n : CNode D), wf n → ∀ m', centeredInner n = some m' →
    wf m' ∧ layer m' + 1 = layer n := by
  intro n hwf m' h
  cases n with
  | leaf c => simp [centeredInner] at h
  | nonleaf f =>
    cases hlo : f (lo D) with
    | leaf c0 =>
      simp only [centeredInner, hlo] at h
      cases h
      refine ⟨trivial, ?_⟩
      simp [layer, hlo]
    | nonleaf g0 =>
      simp only [centeredInner, hlo] at h
      cases h
      obtain ⟨hwfc, hlay⟩ := hwf
      have hchild := wf_children_nonleaf ⟨hwfc, hlay⟩ hlo
      have hlayIC : ∀ b, layer (innerChild f b) + 1 = layer (f b) := by
        intro b
        obtain ⟨g, hg⟩ := hchild b
        have hwb : wf (f b) := hwfc b
        rw [hg] at hwb
        obtain ⟨_, hlayg⟩ := hwb
        simp only [innerChild, hg, layer, hlayg (opp b)]
      constructor
      · constructor
        · intro b
          obtain ⟨g, hg⟩ := hchild b
          have hwb : wf (f b) := hwfc b
          rw [hg] at hwb
          simp only [innerChild, hg]
          exact hwb.1 (opp b)
        · intro b
          have h1 := hlayIC b
          have h2 := hlayIC (lo D)
          have h3 := hlay b
          omega
      · have h1 := hlayIC (lo D)
        simp only [layer]
        omega

theorem layer_innerChild {f : BV D → CNode D} (hwf : wf (.nonleaf f))
    {g0 : BV D → CNode D} (hlo : f (lo D) = .nonleaf g0) :
    ∀ b, layer (innerChild f b) + 1 = layer (f b) := by
  intro b
  obtain ⟨g, hg⟩ := wf_children_nonleaf hwf hlo b
  have hwb : wf (f b) := hwf.1 b
  rw [hg] at hwb
  obtain ⟨_, hlayg⟩ := hwb
  simp only [innerChild, hg, layer, hlayg (opp b)]

theorem sum_eq_single_forces_zero {α : Type} [Fintype α] [DecidableEq α]
    (f : α → Nat) (a : α) (h : ∑ x : α, f x = f a) :
    ∀ x, x ≠ a → f x = 0 := by
  intro x hx
  have h1 : f a + ∑ y ∈ Finset.univ.erase a, f y = ∑ y : α, f y :=
    Finset.add_sum_erase _ _ (Finset.mem_univ a)
  have h2 : ∑ y ∈ Finset.univ.erase a, f y = 0 := by omega
  rw [Finset.sum_eq_zero_iff] at h2
  exact h2 x (Finset.mem_erase.mpr ⟨hx, Finset.mem_univ x⟩)

/-- Content of the centered inner node: within its own coordinates it
agrees with the parent node shifted by a quarter of the parent's side
length. -/
theorem getCellNode_centeredInner :
    ∀ (n : CNode D), wf n → ∀ m', centeredInner n = some m' →
    ∀ L, layer n = L + 2 → ∀ pos : BigVec D, inR (L + 1) pos →
    getCellNode m' pos = getCellNode n (fun k => pos k + 2 ^ L) := by
  intro n hwf m' h L hm pos hin
  cases n with
  | leaf c => simp [centeredInner] at h
  | nonleaf f =>
    cases hlo : f (lo D) with
    | leaf c0 =>
      have hL0 : L = 0 := by
        have : layer (f (lo D)) + 1 = L + 2 := hm
        rw [hlo] at this
        simp only [layer] at this
        omega
      subst hL0
      simp only [centeredInner, hlo] at h
      cases h
      have hlf : layer (f (lo D)) = 1 := by rw [hlo]; rfl
      obtain ⟨c, hc⟩ := wf_children_leaf hwf hlo (leafBits pos)
      have hB : childBits f (fun k => pos k + 2 ^ 0) = leafBits pos := by
        funext k
        simp only [childBits, hlf, leafBits, pow_zero, pow_one]
        rw [decide_eq_decide]
        omega
      have hsub : leafBits (subPos f (fun k => pos k + 2 ^ 0)) = opp (leafBits pos) := by
        funext k
        have hk := hin k
        simp only [pow_zero, pow_one] at hk ⊢
        simp only [leafBits, subPos, hlf, opp, pow_one, ← decide_not]
        rw [decide_eq_decide]
        split_ifs with h2 <;> omega
      rw [getCellNode_leaf, getCellNode_nonleaf, hB, hc, getCellNode_leaf, hsub]
      simp only [innerCell, hc]
    | nonleaf g0 =>
      simp only [centeredInner, hlo] at h
      cases h
      have hlf : layer (f (lo D)) = L + 1 := by
        have : layer (f (lo D)) + 1 = L + 2 := hm
        omega
      have hpow : (0:ℤ) < 2 ^ L := by positivity
      have hp2 : (2:ℤ) ^ (L + 1) = 2 ^ L * 2 := pow_succ 2 L
      have hIClay := layer_innerChild hwf hlo
      have hIClo : layer (innerChild f (lo D)) = L := by
        have := hIClay (lo D)
        omega
      have hBdef : childBits (innerChild f) pos = fun k => decide ((2:ℤ) ^ L ≤ pos k) := by
        funext k
        simp only [childBits, hIClo]
      have hSdef : subPos (innerChild f) pos =
          fun k => pos k - if (2:ℤ) ^ L ≤ pos k then (2:ℤ) ^ L else 0 := by
        funext k
        simp only [subPos, hIClo]
      set B : BV D := fun k => decide ((2:ℤ) ^ L ≤ pos k) with hBdef2
      obtain ⟨g, hg⟩ := wf_children_nonleaf hwf hlo B
      have hwB : wf (f B) := hwf.1 B
      rw [hg] at hwB
      obtain ⟨hwg, hlayg⟩ := hwB
      have hglo : layer (g (lo D)) = L := by
        have h1 : layer (CNode.nonleaf g) = L + 1 := by
          rw [← hg, hwf.2 B, hlf]
        simp only [layer] at h1
        omega
      have hB' : childBits f (fun k => pos k + 2 ^ L) = B := by
        funext k
        simp only [childBits, hlf, hBdef2]
        rw [decide_eq_decide]
        omega
      have hB2' : childBits g (subPos f (fun k => pos k + 2 ^ L)) = opp B := by
        funext k
        have hk := hin k
        rw [pow_succ] at hk
        simp only [childBits, hglo, subPos, hlf, opp, hBdef2, ← decide_not]
        rw [decide_eq_decide]
        split_ifs with h2 <;> omega
      have hsub2 : subPos g (subPos f (fun k => pos k + 2 ^ L)) =
          subPos (innerChild f) pos := by
        funext k
        have hk := hin k
        rw [pow_succ] at hk
        rw [hSdef]
        simp only [subPos, hglo, hlf]
        split_ifs <;> omega
      have hICB : innerChild f B = g (opp B) := by
        simp only [innerChild, hg]
      rw [getCellNode_nonleaf, hBdef, hICB]
      rw [getCellNode_nonleaf, hB', hg, getCellNode_nonleaf, hB2', hsub2]

/-- If the centered inner node carries the whole population, every cell
outside the center region is zero. -/
theorem getCellNode_outside_center (n : CNode D) (hwf : wf n) {m' : CNode D}
    (h : centeredInner n = some m') (hpop : population m' = population n)
    {L : Nat} (hm : layer n = L + 2) (pos : BigVec D) (hin : inR (L + 2) pos)
    (hout : ¬ ∀ k, (2:ℤ) ^ L ≤ pos k ∧ pos k < 3 * 2 ^ L) :
    getCellNode n pos = 0 := by
  cases n with
  | leaf c => simp [centeredInner] at h
  | nonleaf f =>
    push_neg at hout
    obtain ⟨k0, hk0⟩ := hout
    have hpowL : (0:ℤ) < 2 ^ L := by positivity
    have hp2 : (2:ℤ) ^ (L + 1) = 2 ^ L * 2 := pow_succ 2 L
    have hp3 : (2:ℤ) ^ (L + 2) = 2 ^ L * 4 := by
      rw [pow_succ, pow_succ]
      ring
    have hside : pos k0 < 2 ^ L ∨ 3 * 2 ^ L ≤ pos k0 := by
      by_cases hge : (2:ℤ) ^ L ≤ pos k0
      · exact Or.inr (hk0 hge)
      · exact Or.inl (by omega)
    cases hlo : f (lo D) with
    | leaf c0 =>
      have hL0 : L = 0 := by
        have : layer (f (lo D)) + 1 = L + 2 := hm
        rw [hlo] at this
        simp only [layer] at this
        omega
      subst hL0
      simp only [centeredInner, hlo] at h
      have hcells : ∀ b j, j ≠ opp b → (match f b with
          | CNode.leaf cb => cb j
          | CNode.nonleaf _ => 0) = 0 := by
        intro b j hj
        obtain ⟨cb, hcb⟩ := wf_children_leaf hwf hlo b
        rw [hcb]
        cases h
        have hpop2 : ∑ b : BV D, (if innerCell f b = 0 then 0 else 1) =
            ∑ b : BV D, population (f b) := hpop
        have hle : ∀ b, (fun b => if innerCell f b = 0 then 0 else 1) b ≤
            (fun b => population (f b)) b := by
          intro b'
          obtain ⟨cb', hcb'⟩ := wf_children_leaf hwf hlo b'
          simp only [innerCell, hcb', population]
          refine le_trans ?_ (Finset.single_le_sum (f := fun j =>
            if cb' j = 0 then 0 else 1) (fun _ _ => Nat.zero_le _) (Finset.mem_univ (opp b')))
          exact le_refl _
        have heach := (Finset.sum_eq_sum_iff_of_le (fun b' _ => hle b')).mp hpop2 b
          (Finset.mem_univ b)
        simp only [innerCell, hcb, population] at heach
        have hz := sum_eq_single_forces_zero (fun j => if cb j = 0 then 0 else 1)
          (opp b) heach.symm j hj
        by_contra hc2
        simp [hc2] at hz
      have hlf : layer (f (lo D)) = 1 := by rw [hlo]; rfl
      have hB1 : childBits f pos = fun k => decide ((2:ℤ) ≤ pos k) := by
        funext k
        simp [childBits, hlf]
      obtain ⟨cB, hcB⟩ := wf_children_leaf hwf hlo (fun k => decide ((2:ℤ) ≤ pos k))
      rw [getCellNode_nonleaf, hB1, hcB, getCellNode_leaf]
      have hne : leafBits (subPos f pos) ≠ opp fun k => decide ((2:ℤ) ≤ pos k) := by
        intro heq
        have h0 := congrFun heq k0
        have hk := hin k0
        simp only [pow_zero] at hk0 hside
        norm_num at hk
        simp only [leafBits, subPos, hlf, opp, ← decide_not, pow_one] at h0
        rw [decide_eq_decide] at h0
        split_ifs at h0 <;> omega
      have := hcells (fun k => decide ((2:ℤ) ≤ pos k)) (leafBits (subPos f pos)) hne
      rw [hcB] at this
      exact this
    | nonleaf g0 =>
      simp only [centeredInner, hlo] at h
      cases h
      have hlf : layer (f (lo D)) = L + 1 := by
        have : layer (f (lo D)) + 1 = L + 2 := hm
        omega
      have hgpop : ∀ b j, j ≠ opp b → (match f b with
          | CNode.nonleaf gb => population (gb j)
          | CNode.leaf _ => 0) = 0 := by
        intro b j hj
        obtain ⟨gb, hgb⟩ := wf_children_nonleaf hwf hlo b
        rw [hgb]
        have hpop2 : ∑ b : BV D, population (innerChild f b) =
            ∑ b : BV D, population (f b) := hpop
        have hle : ∀ b', population (innerChild f b') ≤ population (f b') := by
          intro b'
          obtain ⟨gb', hgb'⟩ := wf_children_nonleaf hwf hlo b'
          simp only [innerChild, hgb', population]
          exact Finset.single_le_sum (f := fun j => population (gb' j))
            (fun _ _ => Nat.zero_le _) (Finset.mem_univ (opp b'))
        have heach := (Finset.sum_eq_sum_iff_of_le (fun b' _ => hle b')).mp hpop2 b
          (Finset.mem_univ b)
        simp only [innerChild, hgb, population] at heach
        exact sum_eq_single_forces_zero (fun j => population (gb j)) (opp b)
          heach.symm j hj
      have hB1 : childBits f pos = fun k => decide ((2:ℤ) ^ (L + 1) ≤ pos k) := by
        funext k
        simp [childBits, hlf]
      set B1 : BV D := fun k => decide ((2:ℤ) ^ (L + 1) ≤ pos k) with hB1def
      obtain ⟨gB, hgB⟩ := wf_children_nonleaf hwf hlo B1
      have hglo : layer (gB (lo D)) = L := by
        have hwB : wf (f B1) := hwf.1 B1
        rw [hgB] at hwB
        have h1 : layer (CNode.nonleaf gB) = L + 1 := by
          rw [← hgB, hwf.2 B1, hlf]
        simp only [layer] at h1
        omega
      have hB2 : childBits gB (subPos f pos) =
          fun k => decide ((2:ℤ) ^ L ≤ subPos f pos k) := by
        funext k
        simp [childBits, hglo]
      rw [getCellNode_nonleaf, hB1, hgB, getCellNode_nonleaf, hB2]
      have hne : (fun k => decide ((2:ℤ) ^ L ≤ subPos f pos k)) ≠ opp B1 := by
        intro heq
        have h0 := congrFun heq k0
        have hk := hin k0
        rw [hp3] at hk
        simp only [subPos, hlf, opp, hB1def, ← decide_not] at h0
        rw [decide_eq_decide] at h0
        split_ifs at h0 <;> omega
      have := hgpop B1 (fun k => decide ((2:ℤ) ^ L ≤ subPos f pos k)) hne
      rw [hgB] at this
      exact getCellNode_of_population_zero _ this _
end CNode

open CNode

/-- The tree handle: a root node plus the global coordinates of the
root's lower corner (`NdTreeSlice { root, offset }`). -/
structure NdTreeT (D : Nat) : Type where
  root : CNode D
  offset : BigVec D

namespace NdTreeT

variable {D : Nat}

/-- `NdTree::new()`: an empty layer-1 root centered on the origin
(offset `-1` along every axis). -/
def new (D : Nat) : NdTreeT D :=
  { root := emptyNode D 1, offset := fun _ => -1 }

/-- Side length of the root (`len = 2^layer`). -/
def len (t : NdTreeT D) : ℤ := 2 ^ layer t.root

/-- The rooted rectangle: positions currently covered by the root. -/
def inRect (t : NdTreeT D) (pos : BigVec D) : Prop :=
  ∀ k, t.offset k ≤ pos k ∧ pos k < t.offset k + len t

instance (t : NdTreeT D) (pos : BigVec D) : Decidable (t.inRect pos) :=
  inferInstanceAs (Decidable (∀ _, _ ∧ _))

/-- `NdTree::get_cell`: the cell at a global position, or 0 outside the
rooted region (`slice.get_cell(pos).unwrap_or_default()`). -/
def get_cell (t : NdTreeT D) (pos : BigVec D) : Nat :=
  if t.inRect pos then getCellNode t.root (fun k => pos k - t.offset k) else 0

/-- `NdTree::expand`: zoom out by a factor of 2; the new root's offset
moves down by a quarter of the new root's length along each axis. -/
def expand (t : NdTreeT D) : NdTreeT D :=
  let newRoot := expandRoot t.root
  { root := newRoot, offset := fun k => t.offset k - 2 ^ layer newRoot / 4 }

/-- Sum of the per-axis distances from a position to the rooted
rectangle; zero exactly when the position is inside.  Termination
measure for `expand_to`. -/
def outDist (t : NdTreeT D) (pos : BigVec D) : Nat :=
  ∑ k : Fin D, ((t.offset k - pos k).toNat + (pos k - (t.offset k + len t - 1)).toNat)

theorem expand_offset (t : NdTreeT D) :
    t.expand.offset = fun k => t.offset k - 2 ^ (layer t.root - 1) := by
  obtain ⟨m, hm⟩ : ∃ m, layer t.root = m + 1 :=
    ⟨layer t.root - 1, by have := layer_pos t.root; omega⟩
  funext k
  simp only [expand, layer_expandRoot, hm, Nat.add_sub_cancel]
  have : (2 : ℤ) ^ (m + 1 + 1) / 4 = 2 ^ m := by
    rw [show m + 1 + 1 = m + 2 by rfl, pow_add]
    norm_num
  rw [this]

theorem expand_layer (t : NdTreeT D) : layer t.expand.root = layer t.root + 1 := by
  simp [expand, layer_expandRoot]

theorem outDist_expand_lt {t : NdTreeT D} {pos : BigVec D} (h : ¬ t.inRect pos) :
    outDist t.expand pos < outDist t pos := by
  obtain ⟨m, hm⟩ : ∃ m, layer t.root = m + 1 :=
    ⟨layer t.root - 1, by have := layer_pos t.root; omega⟩
  have hoff : ∀ k, t.expand.offset k = t.offset k - 2 ^ m := by
    intro k
    rw [expand_offset]
    simp [hm]
  have hpow : (0:ℤ) < 2 ^ m := by positivity
  have hlen2 : t.len = 2 * 2 ^ m := by
    simp only [len, hm, pow_succ]
    ring
  have hlene : t.expand.len = 2 * t.len := by
    simp only [len, expand_layer, pow_succ]
    ring
  have hterm : ∀ k : Fin D,
      (t.expand.offset k - pos k).toNat +
        (pos k - (t.expand.offset k + t.expand.len - 1)).toNat ≤
      (t.offset k - pos k).toNat + (pos k - (t.offset k + t.len - 1)).toNat := by
    intro k
    have h1 : t.expand.offset k - pos k ≤ t.offset k - pos k := by
      rw [hoff]; omega
    have h2 : pos k - (t.expand.offset k + t.expand.len - 1) ≤
        pos k - (t.offset k + t.len - 1) := by
      rw [hoff, hlene]; omega
    exact Nat.add_le_add (Int.toNat_le_toNat h1) (Int.toNat_le_toNat h2)
  simp only [inRect, not_forall] at h
  obtain ⟨k0, hk0⟩ := h
  have hstrict :
      (t.expand.offset k0 - pos k0).toNat +
        (pos k0 - (t.expand.offset k0 + t.expand.len - 1)).toNat <
      (t.offset k0 - pos k0).toNat + (pos k0 - (t.offset k0 + t.len - 1)).toNat := by
    rcases not_and_or.mp hk0 with hlow | hhigh
    · push_neg at hlow
      have hl1 : 0 < t.offset k0 - pos k0 := by omega
      have hlt : t.expand.offset k0 - pos k0 < t.offset k0 - pos k0 := by
        rw [hoff]; omega
      have hfst : (t.expand.offset k0 - pos k0).toNat < (t.offset k0 - pos k0).toNat :=
        (Int.toNat_lt_toNat hl1).mpr hlt
      have hsnd := Int.toNat_le_toNat (show pos k0 - (t.expand.offset k0 + t.expand.len - 1) ≤
          pos k0 - (t.offset k0 + t.len - 1) by rw [hoff, hlene]; omega)
      omega
    · push_neg at hhigh
      have hh1 : 0 < pos k0 - (t.offset k0 + t.len - 1) := by omega
      have hlt : pos k0 - (t.expand.offset k0 + t.expand.len - 1) <
          pos k0 - (t.offset k0 + t.len - 1) := by
        rw [hoff, hlene]; omega
      have hsnd : (pos k0 - (t.expand.offset k0 + t.expand.len - 1)).toNat <
          (pos k0 - (t.offset k0 + t.len - 1)).toNat :=
        (Int.toNat_lt_toNat hh1).mpr hlt
      have hfst := Int.toNat_le_toNat (show t.expand.offset k0 - pos k0 ≤
          t.offset k0 - pos k0 by rw [hoff]; omega)
      omega
  exact Finset.sum_lt_sum (fun k _ => hterm k) ⟨k0, Finset.mem_univ k0, hstrict⟩

/-- `NdTree::expand_to`: expand until the given position is inside the
rooted rectangle (also returning the number of expansions, as the source
does). -/
def expand_to (t : NdTreeT D) (pos : BigVec D) : NdTreeT D × Nat :=
  if h : t.inRect pos then (t, 0)
  else
    let r := expand_to t.expand pos
    (r.1, r.2 + 1)
  termination_by outDist t pos
  decreasing_by exact outDist_expand_lt h

/-- `NdTree::set_cell`: expand so the position is inside the rooted
region, then path-copy from the root down to the cell. -/
def set_cell (t : NdTreeT D) (pos : BigVec D) (v : Nat) : NdTreeT D :=
  let t' := (expand_to t pos).1
  { root := setCellNode t'.root (fun k => pos k - t'.offset k) v
    offset := t'.offset }

/-- `NdTree::set_root_centered`: replace the root, adjusting the offset
so the geometric center is preserved. -/
def set_root_centered (t : NdTreeT D) (newRoot : CNode D) : NdTreeT D :=
  { root := newRoot
    offset := fun k => t.offset k + 2 ^ layer t.root / 2 - 2 ^ layer newRoot / 2 }

/-- `NdTree::shrink`: while the root is above the minimum layer and its
centered inner node holds the whole population, replace the root by that
inner node (returning the number of shrink steps, as the source does). -/
def shrink (t : NdTreeT D) : NdTreeT D × Nat :=
  if layer t.root = 1 then (t, 0)
  else
    match h : centeredInner t.root with
    | none => (t, 0)
    | some inner =>
      if population inner = population t.root then
        let r := shrink (t.set_root_centered inner)
        (r.1, r.2 + 1)
      else (t, 0)
  termination_by depth t.root
  decreasing_by
    simp only [set_root_centered]
    exact depth_centeredInner h

theorem inRect_iff_inR (t : NdTreeT D) (q : BigVec D) :
    t.inRect q ↔ inR (layer t.root) (fun k => q k - t.offset k) := by
  simp only [inRect, inR, len]
  constructor <;> intro h k <;> have := h k <;> omega

theorem get_cell_of_population_zero (t : NdTreeT D)
    (hp : population t.root = 0) (q : BigVec D) : t.get_cell q = 0 := by
  simp only [get_cell]
  split
  · exact getCellNode_of_population_zero _ hp _
  · rfl

theorem expand_root_eq (t : NdTreeT D) : t.expand.root = expandRoot t.root := rfl

theorem expand_population (t : NdTreeT D) :
    population t.expand.root = population t.root := population_expandRoot t.root

theorem expand_wf (t : NdTreeT D) (hwf : wf t.root) : wf t.expand.root :=
  wf_expandRoot t.root hwf

/-- P2: expanding preserves the cell at every global position. -/
theorem expand_get_cell (t : NdTreeT D) (hwf : wf t.root) (q : BigVec D) :
    t.expand.get_cell q = t.get_cell q := by
  obtain ⟨m, hm⟩ : ∃ m, layer t.root = m + 1 :=
    ⟨layer t.root - 1, by have := layer_pos t.root; omega⟩
  have hpow : (0:ℤ) < 2 ^ m := by positivity
  have hoff : ∀ k, t.expand.offset k = t.offset k - 2 ^ m := by
    intro k
    rw [expand_offset]
    simp [hm]
  have hlen : t.len = 2 ^ m * 2 := by
    simp only [len, hm, pow_succ]
  have hlene : t.expand.len = 2 ^ m * 4 := by
    simp only [len, expand_layer, hm]
    rw [pow_succ, pow_succ]
    ring
  have hnode := getCellNode_expandRoot t.root hwf hm (fun k => q k - t.expand.offset k)
  simp only [get_cell, expand_root_eq]
  by_cases hq : t.inRect q
  · have hq2 : t.expand.inRect q := by
      intro k
      have := hq k
      rw [hoff]
      simp only [len, hm] at this ⊢
      rw [expand_layer, hm]
      rw [pow_succ] at this
      rw [pow_succ, pow_succ]
      omega
    rw [if_pos hq, if_pos hq2, hnode, if_pos]
    · congr 1
      funext k
      rw [hoff]
      ring
    · intro k
      have := hq k
      rw [hoff, hlen] at *
      omega
  · rw [if_neg hq]
    by_cases hq2 : t.expand.inRect q
    · rw [if_pos hq2, hnode, if_neg]
      intro hcen
      apply hq
      intro k
      have := hcen k
      rw [hoff] at this
      rw [hlen]
      constructor <;> omega
    · rw [if_neg hq2]

theorem expand_to_spec (t : NdTreeT D) (pos : BigVec D) (hwf : wf t.root) :
    wf ((t.expand_to pos).1).root ∧ ((t.expand_to pos).1).inRect pos ∧
      (∀ q, ((t.expand_to pos).1).get_cell q = t.get_cell q) ∧
      population ((t.expand_to pos).1).root = population t.root := by
  induction t, pos using expand_to.induct with
  | case1 t pos h =>
    rw [expand_to, dif_pos h]
    exact ⟨hwf, h, fun _ => rfl, rfl⟩
  | case2 t pos h ih =>
    rw [expand_to, dif_neg h]
    obtain ⟨ih1, ih2, ih3, ih4⟩ := ih (expand_wf t hwf)
    refine ⟨ih1, ih2, fun q => ?_, ?_⟩
    · rw [ih3 q, expand_get_cell t hwf q]
    · rw [ih4, expand_population]

theorem set_cell_offset (t : NdTreeT D) (pos : BigVec D) (v : Nat) :
    (t.set_cell pos v).offset = ((t.expand_to pos).1).offset := rfl

theorem set_cell_layer (t : NdTreeT D) (pos : BigVec D) (v : Nat) :
    layer (t.set_cell pos v).root = layer ((t.expand_to pos).1).root :=
  layer_setCellNode _ _ _

theorem set_cell_wf (t : NdTreeT D) (pos : BigVec D) (v : Nat) (hwf : wf t.root) :
    wf (t.set_cell pos v).root :=
  wf_setCellNode _ (expand_to_spec t pos hwf).1 _ _

theorem set_cell_inRect (t : NdTreeT D) (pos q : BigVec D) (v : Nat) :
    (t.set_cell pos v).inRect q ↔ ((t.expand_to pos).1).inRect q := by
  simp only [inRect, set_cell_offset, len, set_cell_layer]

/-- Reading back the cell just written. -/
theorem get_cell_set_cell_self (t : NdTreeT D) (hwf : wf t.root)
    (pos : BigVec D) (v : Nat) : (t.set_cell pos v).get_cell pos = v := by
  obtain ⟨h1, h2, _, _⟩ := expand_to_spec t pos hwf
  have hin : (t.set_cell pos v).inRect pos := (set_cell_inRect t pos pos v).mpr h2
  simp only [get_cell, if_pos hin]
  exact getCellNode_setCellNode_self _ h1 _ v ((inRect_iff_inR _ _).mp h2)

/-- Writing one cell does not change any other cell. -/
theorem get_cell_set_cell_of_ne (t : NdTreeT D) (hwf : wf t.root)
    (pos q : BigVec D) (v : Nat) (hne : q ≠ pos) :
    (t.set_cell pos v).get_cell q = t.get_cell q := by
  obtain ⟨h1, h2, h3, _⟩ := expand_to_spec t pos hwf
  rw [← h3 q]
  by_cases hq : ((t.expand_to pos).1).inRect q
  · have hin : (t.set_cell pos v).inRect q := (set_cell_inRect t pos q v).mpr hq
    simp only [get_cell, if_pos hin, if_pos hq]
    refine getCellNode_setCellNode_of_ne _ h1 _ _ v
      ((inRect_iff_inR _ _).mp h2) ((inRect_iff_inR _ _).mp hq) ?_
    intro hx
    apply hne
    funext k
    have := congrFun hx k
    simp only [set_cell_offset] at this
    omega
  · have hin : ¬ (t.set_cell pos v).inRect q := fun hx =>
      hq ((set_cell_inRect t pos q v).mp hx)
    simp only [get_cell, if_neg hin, if_neg hq]

theorem int_pow_div_two (l : Nat) : (2:ℤ) ^ (l + 1) / 2 = 2 ^ l := by
  rw [pow_succ]
  omega

/-- One shrink replacement (root := centered inner node, with the offset
recentered) preserves every cell and keeps the rooted rectangle inside
the old one. -/
theorem set_root_centered_spec (t : NdTreeT D) (hwf : wf t.root) {n' : CNode D}
    (h : centeredInner t.root = some n') (hpop : population n' = population t.root)
    (hne1 : layer t.root ≠ 1) :
    (∀ q, (t.set_root_centered n').get_cell q = t.get_cell q) ∧
      (∀ q, (t.set_root_centered n').inRect q → t.inRect q) := by
  obtain ⟨L, hm⟩ : ∃ L, layer t.root = L + 2 := by
    have := layer_pos t.root
    exact ⟨layer t.root - 2, by omega⟩
  obtain ⟨hwfI, hlayI⟩ := wf_layer_centeredInner t.root hwf n' h
  have hlay' : layer n' = L + 1 := by omega
  have hpowL : (0:ℤ) < 2 ^ L := by positivity
  have hp2 : (2:ℤ) ^ (L + 1) = 2 ^ L * 2 := pow_succ 2 L
  have hp3 : (2:ℤ) ^ (L + 2) = 2 ^ L * 4 := by
    rw [pow_succ, pow_succ]
    ring
  have hoff : ∀ k, (t.set_root_centered n').offset k = t.offset k + 2 ^ L := by
    intro k
    simp only [set_root_centered, hm, hlay']
    rw [int_pow_div_two L, show L + 2 = (L + 1) + 1 from rfl, int_pow_div_two (L + 1)]
    omega
  have hroot : (t.set_root_centered n').root = n' := rfl
  have hlenS : (t.set_root_centered n').len = 2 ^ L * 2 := by
    simp only [len, hroot, hlay', hp2]
  have hlenT : t.len = 2 ^ L * 4 := by
    simp only [len, hm, hp3]
  have hsub : ∀ q, (t.set_root_centered n').inRect q → t.inRect q := by
    intro q hq k
    have := hq k
    rw [hoff, hlenS] at this
    rw [hlenT]
    omega
  refine ⟨fun q => ?_, hsub⟩
  by_cases hq : (t.set_root_centered n').inRect q
  · have hqT : t.inRect q := hsub q hq
    simp only [get_cell, if_pos hq, if_pos hqT, hroot]
    have hinr : inR (L + 1) (fun k => q k - (t.set_root_centered n').offset k) := by
      intro k
      have := hq k
      rw [hoff, hlenS] at this
      dsimp only
      rw [hoff]
      omega
    have := getCellNode_centeredInner t.root hwf n' h L hm
      (fun k => q k - (t.set_root_centered n').offset k) hinr
    rw [this]
    congr 1
    funext k
    dsimp only
    rw [hoff]
    ring
  · simp only [get_cell, if_neg hq]
    by_cases hqT : t.inRect q
    · rw [if_pos hqT]
      refine (getCellNode_outside_center t.root hwf h hpop hm _ ?_ ?_).symm
      · intro k
        have := hqT k
        rw [hlenT] at this
        dsimp only
        rw [hp3]
        omega
      · intro hcen
        apply hq
        intro k
        have := hcen k
        rw [hoff, hlenS]
        omega
    · rw [if_neg hqT]

theorem shrink_spec (t : NdTreeT D) (hwf : wf t.root) :
    wf ((t.shrink).1).root ∧ (∀ q, (t.shrink).1.get_cell q = t.get_cell q) ∧
      population (t.shrink).1.root = population t.root ∧
      (∀ q, (t.shrink).1.inRect q → t.inRect q) := by
  induction t using shrink.induct with
  | case1 t h =>
    rw [shrink, if_pos h]
    exact ⟨hwf, fun _ => rfl, rfl, fun _ hq => hq⟩
  | case2 t h hnone =>
    rw [shrink, if_neg h]
    split
    · exact ⟨hwf, fun _ => rfl, rfl, fun _ hq => hq⟩
    · next inner heq =>
      rw [hnone] at heq
      cases heq
  | case3 t h n' hsome hpop ih =>
    obtain ⟨hwfI, _⟩ := wf_layer_centeredInner t.root hwf n' hsome
    obtain ⟨hget, hsub⟩ := set_root_centered_spec t hwf hsome hpop h
    obtain ⟨ih1, ih2, ih3, ih4⟩ := ih hwfI
    rw [shrink, if_neg h]
    split
    · next heq =>
      rw [hsome] at heq
      cases heq
    · next inner heq =>
      rw [hsome] at heq
      injection heq with heq2
      subst heq2
      rw [if_pos hpop]
      refine ⟨ih1, fun q => ?_, ?_, fun q hq => ?_⟩
      · rw [show ((t.set_root_centered n').shrink.1, (t.set_root_centered n').shrink.2 + 1).1
          = (t.set_root_centered n').shrink.1 from rfl, ih2 q, hget q]
      · rw [show ((t.set_root_centered n').shrink.1, (t.set_root_centered n').shrink.2 + 1).1
          = (t.set_root_centered n').shrink.1 from rfl, ih3]
        exact hpop
      · exact hsub q (ih4 q hq)
  | case4 t h n' hsome hpop =>
    rw [shrink, if_neg h]
    split
    · next heq =>
      rw [hsome] at heq
      cases heq
    · next inner heq =>
      rw [hsome] at heq
      injection heq with heq2
      subst heq2
      rw [if_neg hpop]
      exact ⟨hwf, fun _ => rfl, rfl, fun _ hq => hq⟩

end NdTreeT

/-- A sequence of `set_cell` assignments applied in order. -/
def applyOps {D : Nat} (t : NdTreeT D) (ops : List (BigVec D × Nat)) : NdTreeT D :=
  ops.foldl (fun t p => t.set_cell p.1 p.2) t

/-- The state of the last assignment to `q` in a sequence of assignments,
if any. -/
def lastWrite {D : Nat} (ops : List (BigVec D × Nat)) (q : BigVec D) : Option Nat :=
  ops.foldl (fun acc p => if p.1 = q then some p.2 else acc) none

theorem lastWrite_foldl {D : Nat} (q : BigVec D) (ops : List (BigVec D × Nat)) :
    ∀ i : Option Nat,
      ops.foldl (fun acc p => if p.1 = q then some p.2 else acc) i =
        match ops.foldl (fun acc p => if p.1 = q then some p.2 else acc) none with
        | some c => some c
        | none => i := by
  induction ops with
  | nil => intro i; rfl
  | cons p ops ih =>
    intro i
    simp only [List.foldl_cons]
    rw [ih (if p.1 = q then some p.2 else i), ih (if p.1 = q then some p.2 else none)]
    cases hw : ops.foldl (fun acc p => if p.1 = q then some p.2 else acc) none with
    | some c => rfl
    | none =>
      by_cases hpq : p.1 = q <;> simp [hpq]

theorem applyOps_get_cell {D : Nat} (ops : List (BigVec D × Nat)) :
    ∀ (t : NdTreeT D), wf t.root → ∀ q,
      (applyOps t ops).get_cell q =
        match lastWrite ops q with
        | some c => c
        | none => t.get_cell q := by
  induction ops with
  | nil => intro t _ q; rfl
  | cons p ops ih =>
    intro t hwf q
    have h1 : applyOps t (p :: ops) = applyOps (t.set_cell p.1 p.2) ops := rfl
    rw [h1, ih _ (NdTreeT.set_cell_wf t p.1 p.2 hwf) q]
    have h2 : lastWrite (p :: ops) q =
        match lastWrite ops q with
        | some c => some c
        | none => if p.1 = q then some p.2 else none := lastWrite_foldl q ops _
    rw [h2]
    cases hw : lastWrite ops q with
    | some c => rfl
    | none =>
      by_cases hpq : p.1 = q
      · simp only [if_pos hpq]
        subst hpq
        exact NdTreeT.get_cell_set_cell_self t hwf p.1 p.2
      · simp only [if_neg hpq]
        exact NdTreeT.get_cell_set_cell_of_ne t hwf p.1 q p.2 fun hx => hpq hx.symm

/-- Claim C7: for every sequence of `set_cell(pos, state)` assignments on a
tree created by `new()`, `get_cell(pos)` returns the state of the last
assignment to `pos`, or 0 if `pos` was never assigned; and `get_cell`
returns 0 at every position outside the current rooted region. -/
theorem claim_C7_set_get_round_trip :
    (∀ (D : Nat) (ops : List (BigVec D × Nat)) (q : BigVec D),
      (applyOps (NdTreeT.new D) ops).get_cell q = (lastWrite ops q).getD 0) ∧
    ∀ (D : Nat) (t : NdTreeT D) (q : BigVec D), ¬ t.inRect q → t.get_cell q = 0 := by
  constructor
  · intro D ops q
    rw [applyOps_get_cell ops (NdTreeT.new D) (wf_emptyNode D 1) q]
    cases hw : lastWrite ops q with
    | some c => rfl
    | none =>
      exact NdTreeT.get_cell_of_population_zero _ (population_emptyNode D 1) q
  · intro D t q hq
    simp only [NdTreeT.get_cell, if_neg hq]

theorem claim_C7_set_get_round_trip_witness :
    (applyOps (NdTreeT.new 1) [(fun _ => 3, 7), (fun _ => 3, 5)]).get_cell (fun _ => 3)
        = (lastWrite [((fun _ => 3 : BigVec 1), 7), (fun _ => 3, 5)] (fun _ => 3)).getD 0 ∧
      ¬ (NdTreeT.new 1).inRect (fun _ => 9) ∧ (NdTreeT.new 1).get_cell (fun _ => 9) = 0 := by
  refine ⟨?_, by decide, ?_⟩
  · exact claim_C7_set_get_round_trip.1 1 [(fun _ => 3, 7), (fun _ => 3, 5)] (fun _ => 3)
  · exact claim_C7_set_get_round_trip.2 1 (NdTreeT.new 1) (fun _ => 9) (by decide)

/-- Claim C8: `expand()` preserves `get_cell` at every position and the
root's population; the root's layer increases by one and the offset
shifts by minus a quarter of the new root's length along each axis. -/
theorem claim_C8_expand_preserves {D : Nat} (t : NdTreeT D) (hwf : wf t.root) :
    (∀ q, t.expand.get_cell q = t.get_cell q) ∧
      population t.expand.root = population t.root ∧
      layer t.expand.root = layer t.root + 1 ∧
      ∀ k, t.expand.offset k = t.offset k - t.expand.len / 4 :=
  ⟨NdTreeT.expand_get_cell t hwf, NdTreeT.expand_population t,
    NdTreeT.expand_layer t, fun _ => rfl⟩

theorem claim_C8_expand_preserves_witness :
    wf (NdTreeT.new 1).root ∧
      ((∀ q, (NdTreeT.new 1).expand.get_cell q = (NdTreeT.new 1).get_cell q) ∧
        population (NdTreeT.new 1).expand.root = population (NdTreeT.new 1).root ∧
        layer (NdTreeT.new 1).expand.root = layer (NdTreeT.new 1).root + 1 ∧
        ∀ k, (NdTreeT.new 1).expand.offset k =
          (NdTreeT.new 1).offset k - (NdTreeT.new 1).expand.len / 4) :=
  ⟨wf_emptyNode 1 1, claim_C8_expand_preserves (NdTreeT.new 1) (wf_emptyNode 1 1)⟩

/-- Claim C9: `shrink()` preserves `get_cell` at every position and the
population, and the rooted rectangle afterwards is contained in the one
before; by construction it replaces the root by its centered inner node
only while that node's population equals the root's, recursing until
that fails or the minimum layer is reached. -/
theorem claim_C9_shrink_preserves {D : Nat} (t : NdTreeT D) (hwf : wf t.root) :
    (∀ q, (t.shrink).1.get_cell q = t.get_cell q) ∧
      population (t.shrink).1.root = population t.root ∧
      ∀ q, (t.shrink).1.inRect q → t.inRect q :=
  ⟨(NdTreeT.shrink_spec t hwf).2.1, (NdTreeT.shrink_spec t hwf).2.2.1,
    (NdTreeT.shrink_spec t hwf).2.2.2⟩

theorem claim_C9_shrink_preserves_witness :
    wf (NdTreeT.new 1).root ∧
      ((∀ q, ((NdTreeT.new 1).shrink).1.get_cell q = (NdTreeT.new 1).get_cell q) ∧
        population ((NdTreeT.new 1).shrink).1.root = population (NdTreeT.new 1).root ∧
        ∀ q, ((NdTreeT.new 1).shrink).1.inRect q → (NdTreeT.new 1).inRect q) :=
  ⟨wf_emptyNode 1 1, claim_C9_shrink_preserves (NdTreeT.new 1) (wf_emptyNode 1 1)⟩

/-- Claim C10: `new()` returns a tree whose root is the empty node at
layer 1 and whose offset is −1 on every axis, so the rooted rectangle is
the side-2 hypercube centered on the origin, `get_cell` returns 0
everywhere, and the population is 0. -/
theorem claim_C10_new_tree (D : Nat) :
    (NdTreeT.new D).root = emptyNode D 1 ∧
      (NdTreeT.new D).offset = (fun _ => -1) ∧
      (∀ q, (NdTreeT.new D).get_cell q = 0) ∧
      population (NdTreeT.new D).root = 0 ∧
      ∀ q : BigVec D, (NdTreeT.new D).inRect q ↔ ∀ k, -1 ≤ q k ∧ q k < 1 := by
  refine ⟨rfl, rfl, fun q => ?_, population_emptyNode D 1, fun q => ?_⟩
  · exact NdTreeT.get_cell_of_population_zero _ (population_emptyNode D 1) q
  · simp only [NdTreeT.inRect, NdTreeT.new, NdTreeT.len, layer_emptyNode, pow_one]
    constructor <;> intro h k <;> have := h k <;>
      simp only [max_self] at * <;> omega

/-! ## HashLife stepping (`src/core/src/sim/simulation.rs`)

`Simulation::step` and `Simulation::advance_inner_node` are embedded from
the source.  The node store of the core crate (`ArcNode`, `Layer`,
`NodeRef::result`/`set_result`, `centered_inner`, `join_nodes`,
`get_empty`, the tree's `expand`/`len`/`set_root`/`shrink`) is not under
`src/`; those parts reuse the tree model above, with the leaf layer
`Layer::base::<D>() = 1` (the spec allows layer 1 or 2 and demands
`L_min ≥ L_leaf + 1`).  Rust panics — failed `assert!`s and the two
`todo!()` base cases — are modelled as `Except.error` values, and the
recursion carries explicit fuel (the Rust recursion has none; fuel-out is
a distinct error that never occurs with fuel above the root layer). -/

/-- The distinct panics (`assert!` failures and `todo!()`s) of the step
code, plus the fuel-exhaustion artifact of the embedding. -/
inductive StepPanic : Type where
  | fuelOut : StepPanic
  | belowMinLayer : StepPanic
  | innerNone : StepPanic
  | assertGensNotOne : StepPanic
  | todoOneGen : StepPanic
  | todoMultiGen : StepPanic
  | nonLeafNone : StepPanic
  | assertStepSize : StepPanic
  deriving DecidableEq

/-- The per-cache result table: `node.result()` / `node.set_result(..)`.
The call sites in `advance_inner_node` pass no generation count, so the
table is keyed on the node alone. -/
abbrev Memo (D : Nat) : Type := List (CNode D × CNode D)

def getResult {D : Nat} (memo : Memo D) (n : CNode D) : Option (CNode D) :=
  (memo.find? fun e => decide (e.1 = n)).map (·.2)

def setResult {D : Nat} (memo : Memo D) (n r : CNode D) : Memo D :=
  (n, r) :: memo

/-- The transition function (`TransitionFunction<D>`): a pure map from a
neighborhood view to a cell state.  `advance_inner_node` threads it but
only the unimplemented `todo!()` base cases would apply it. -/
def TF (D : Nat) : Type := (BigVec D → Nat) → Nat

/-- `Simulation::new`'s loop: starting from layer 2, move to the parent
layer while `len / 4 < r`. -/
def minLayerGo (r : Nat) (l : Nat) : Nat :=
  if h : 2 ^ l / 4 < r then minLayerGo r (l + 1) else l
  termination_by 4 * r - 2 ^ l
  decreasing_by
    have h2 : 2 ^ l < 2 ^ (l + 1) := Nat.pow_lt_pow_right (by norm_num) (by omega)
    omega

/-- The minimum layer at which one generation can be simulated
(`Simulation { min_layer }`). -/
def min_layer (r : Nat) : Nat := minLayerGo r 2

/-- `BigInt::bits()` of a non-negative integer: 0 for 0, otherwise
`⌊log2 t⌋ + 1`. -/
def bitsOf (t : Nat) : Nat := if t = 0 then 0 else Nat.log2 t + 1

/-- The driver's
`min_expansion_distance = 1 << (radius_log2 + step_size_log2)` where
`radius_log2 = r.next_power_of_two().trailing_zeros()` (equal to
`⌈log2 r⌉`, i.e. `Nat.clog 2 r`, for every `r`, including `r = 0` since
Rust defines `0.next_power_of_two() = 1`) and
`step_size_log2 = step_size.bits()`. -/
def min_expansion_distance (r t : Nat) : Nat := 2 ^ (Nat.clog 2 r + bitsOf t)

/-- The driver's expansion loop: expand while the accumulated
`expansion_distance` (grown after each expansion by the new root's
`len() >> 2`) is below the bound. -/
def expansion {D : Nat} (t : NdTreeT D) (dist minExp : Nat) : NdTreeT D × Nat :=
  if h : dist < minExp then
    expansion t.expand (dist + 2 ^ layer t.expand.root / 4) minExp
  else (t, dist)
  termination_by minExp - dist
  decreasing_by
    have h1 : 2 ≤ layer t.expand.root := by
      rw [NdTreeT.expand_layer]
      have := layer_pos t.root
      omega
    have h2 : 4 ≤ 2 ^ layer t.expand.root :=
      le_trans (by norm_num) (Nat.pow_le_pow_right (by norm_num) h1)
    have h3 : 1 ≤ 2 ^ layer t.expand.root / 4 := Nat.le_div_iff_mul_le (by norm_num) |>.mpr (by omega)
    omega

/-- `expand` iterated. -/
def expandIter {D : Nat} (t : NdTreeT D) : Nat → NdTreeT D
  | 0 => t
  | k + 1 => (expandIter t k).expand

/-- The expansion distance accumulated after `k` expansions. -/
def partialSum {D : Nat} (t : NdTreeT D) : Nat → Nat
  | 0 => 0
  | k + 1 => partialSum t k + 2 ^ layer (expandIter t (k + 1)).root / 4

/-- Modelled from the spec: the core crate's `NdTree::set_root` used by
the step driver (its code is not under `src/`): "replace the tree's root
with the returned node; the tree's offset advances by `len(old_root)/4`
along each axis so the returned (smaller) node is centered on the old
pattern". -/
def set_root_driver {D : Nat} (t : NdTreeT D) (newRoot : CNode D) : NdTreeT D :=
  { root := newRoot, offset := fun k => t.offset k + t.len / 4 }

/-- `child_at_index` on a non-leaf node (index bit `k` = upper half along
axis `k`); on a leaf the node itself is returned (never reached on
well-formed inputs, where the caller has checked the layer). -/
def childAt {D : Nat} : CNode D → BV D → CNode D
  | .nonleaf f, b => f b
  | .leaf c, _ => .leaf c

/-- Coordinate `k` of flat index `i` in a `D`-cube of side `s`
(lowest axis varies fastest, the spec's scan order). -/
def cubePos (s D : Nat) (i : Nat) : Fin D → Nat := fun k => i / s ^ (k : Nat) % s

/-- Flat index of a coordinate vector in a `D`-cube of side `s`. -/
def cubeIdx (s : Nat) {D : Nat} (q : Fin D → Nat) : Nat :=
  ∑ k : Fin D, q k * s ^ (k : Nat)

/-- A child-index bitmask as a 0/1 coordinate vector. -/
def boolIdx {D : Nat} (b : BV D) : Fin D → Nat := fun k => cond (b k) 1 0

/-- Grandchild of a non-leaf node's children function at a coordinate of
the side-4 grandchild cube: coordinate `q k` selects child half `q k / 2`
and grandchild half `q k % 2` along axis `k`
(`NonLeafNodeRef::grandchild_at_index`, arranged as the spec's side-4
D-cube; its code is not under `src/`). -/
def gq {D : Nat} (f : BV D → CNode D) (q : Fin D → Nat) : CNode D :=
  childAt (f fun k => decide (2 ≤ q k)) fun k => decide (q k % 2 = 1)

/-- Sequentially run a step over a list of nodes, threading the result
cache left to right (the order in which the `NdArray` maps evaluate);
the first panic aborts the whole computation, as a Rust panic would. -/
def runSeq {D : Nat} (step : CNode D → Memo D → Except StepPanic (CNode D × Memo D)) :
    List (CNode D) → Memo D → Except StepPanic (List (CNode D) × Memo D)
  | [], memo => .ok ([], memo)
  | n :: ns, memo =>
    match step n memo with
    | .error e => .error e
    | .ok (r, memo') =>
      match runSeq step ns memo' with
      | .error e => .error e
      | .ok (rs, memo'') => .ok (r :: rs, memo'')

/-- The side-3 cube of joined grandchildren (steps 1–2 of the recursive
case): element `i` (in scan order) joins the `2^D` grandchildren of the
sub-cube at cube-3 position `i`. -/
def h3List {D : Nat} (f : BV D → CNode D) : List (CNode D) :=
  (List.range (3 ^ D)).map fun i =>
    .nonleaf fun b => gq f fun k => cubePos 3 D i k + boolIdx b k

/-- The side-2 cube of joins of the half-stepped results (step 4 of the
recursive case). -/
def h2List {D : Nat} (r3 : List (CNode D)) : List (CNode D) :=
  (List.range (2 ^ D)).map fun i =>
    .nonleaf fun b =>
      r3.getD (cubeIdx 3 fun k => cubePos 2 D i k + boolIdx b k) (emptyNode D 1)

/-- The body of `advance_inner_node` after the memo lookup: the base
cases and the recursive HashLife case, with `recur` standing for the
recursive call at one lower fuel. -/
def advance_compute {D : Nat} (minL : Nat)
    (recur : CNode D → Nat → Memo D → Except StepPanic (CNode D × Memo D))
    (node : CNode D) (gens : Nat) (memo : Memo D) :
    Except StepPanic (CNode D × Memo D) :=
  if gens = 0 then
    match centeredInner node with
    | some r => .ok (r, memo)
    | none => .error .innerNone
  else if population node = 0 then
    match node with
    | .leaf _ => .ok (emptyNode D (layer node - 1), memo)
    | .nonleaf f => .ok (f (lo D), memo)
  else if layer node = minL then
    if gens = 1 then .error .todoOneGen else .error .assertGensNotOne
  else if layer node - 1 ≤ 1 then .error .todoMultiGen
  else
    match node with
    | .leaf _ => .error .nonLeafNone
    | .nonleaf f =>
      match runSeq (fun n m => recur n (gens / 2) m) (h3List f) memo with
      | .error e => .error e
      | .ok (r3, memo₁) =>
        match runSeq (fun n m => recur n (gens - gens / 2) m) (h2List r3) memo₁ with
        | .error e => .error e
        | .ok (r2, memo₂) =>
          .ok (.nonleaf fun b => r2.getD (cubeIdx 2 (boolIdx b)) (emptyNode D 1), memo₂)

/-- `Simulation::advance_inner_node`: computes the centered inner node of
`node` advanced by `gens` generations, memoized through the result table.
Branches in source order: the minimum-layer assertion, the memo lookup,
then `advance_compute` (the zero-generation case, the empty-node case,
the minimum-layer single step after asserting `generations == 1`, the
leaf-adjacent case, and the recursive HashLife case), and finally
`set_result` memoizes the outcome. -/
def advance_inner {D : Nat} (minL : Nat) (τ : TF D) :
    Nat → CNode D → Nat → Memo D → Except StepPanic (CNode D × Memo D)
  | 0, _, _, _ => .error .fuelOut
  | fuel + 1, node, gens, memo =>
    if minL ≤ layer node then
      match getResult memo node with
      | some r => .ok (r, memo)
      | none =>
        match advance_compute minL (advance_inner minL τ fuel) node gens memo with
        | .error e => .error e
        | .ok (ret, memo₁) => .ok (ret, setResult memo₁ node ret)
    else .error .belowMinLayer

/-- `Simulation::step`: assert the step size is positive, expand out to
the sphere of influence, expand once more, advance the root, recenter,
and shrink.  The fuel passed to `advance_inner` is one more than the
root's layer, which the recursion (which descends one layer per level)
never exhausts on well-formed trees. -/
def step_driver {D : Nat} (r : Nat) (τ : TF D) (t : Int) (tree : NdTreeT D)
    (memo : Memo D) : Except StepPanic (NdTreeT D × Memo D) :=
  if t ≤ 0 then .error .assertStepSize
  else
    let tree₂ := (expansion tree 0 (min_expansion_distance r t.toNat)).1.expand
    match advance_inner (min_layer r) τ (layer tree₂.root + 1) tree₂.root t.toNat memo with
    | .error e => .error e
    | .ok (newRoot, memo') => .ok (((set_root_driver tree₂ newRoot).shrink).1, memo')

/-- Claim C6 (corrected): the step driver asserts `step_size > 0`, so a
call with `t ≤ 0` — including `t = 0` — panics on that assertion before
touching the tree; there is no `t = 0` no-op and no recoverable
`InvalidStepSize` error value. -/
theorem claim_C6_nonpositive_step_panics {D : Nat} (r : Nat) (τ : TF D) (t : Int)
    (ht : t ≤ 0) (tree : NdTreeT D) (memo : Memo D) :
    step_driver r τ t tree memo = .error .assertStepSize := by
  simp only [step_driver, if_pos ht]

theorem claim_C6_nonpositive_step_panics_witness :
    step_driver 1 (fun _ => 0) (-1) (NdTreeT.new 1) [] = .error .assertStepSize :=
  claim_C6_nonpositive_step_panics 1 (fun _ => 0) (-1) (by norm_num) (NdTreeT.new 1) []

/-- Claim C6's counterexample: calling the step driver with `t = 0` is
not a no-op returning the tree unchanged and surfaces no error value to
the caller; it hits the `assert!(step_size.is_positive())` panic. -/
theorem claim_C6_counterexample :
    step_driver 1 (fun _ => 0) 0 (NdTreeT.new 1) [] = .error .assertStepSize ∧
      ∀ memo', step_driver 1 (fun _ => 0) 0 (NdTreeT.new 1) [] ≠
        .ok (NdTreeT.new 1, memo') := by
  constructor
  · simp only [step_driver, if_pos (le_refl (0:Int))]
  · intro memo' h
    rw [step_driver, if_pos (le_refl (0:Int))] at h
    exact Except.noConfusion h

/-- Claim C4 (code bug): `advance_inner_node` is specified to return the
layer-(L−1) centered inner node advanced by `gens` generations, but both
cell-level base cases are `todo!()`: on a nonempty node at the minimum
layer with one generation it panics instead of returning a node. -/
theorem claim_C4_advance_todo_panics :
    population (CNode.nonleaf fun _ => CNode.leaf fun b :
        BV 1 => if b 0 then 1 else 0) = 2 ∧
      layer (CNode.nonleaf fun _ => CNode.leaf fun b :
        BV 1 => if b 0 then 1 else 0) = min_layer 1 ∧
      advance_inner (min_layer 1) (fun _ => 0) 2
        (CNode.nonleaf fun _ => CNode.leaf fun b : BV 1 => if b 0 then 1 else 0) 1 [] =
        .error .todoOneGen := by
  have hml : min_layer 1 = 2 := by
    simp [min_layer, minLayerGo]
  rw [hml]
  refine ⟨by decide, rfl, rfl⟩

/-- Claim C1 (code bug): the result table is keyed on the node alone.
First, a memoized result is returned for every generation count, not
only the one it was stored under; second, `set_result` records the
result with no generation key, so the node's next lookup finds it
whatever the generation count was. -/
theorem claim_C1_result_ignores_generations :
    (∀ (D : Nat) (minL : Nat) (τ : TF D) (fuel : Nat) (node r : CNode D) (g2 : Nat)
      (memo : Memo D), minL ≤ layer node → getResult memo node = some r →
      advance_inner minL τ (fuel + 1) node g2 memo = .ok (r, memo)) ∧
    ∀ (D : Nat) (memo : Memo D) (node ret : CNode D),
      getResult (setResult memo node ret) node = some ret := by
  constructor
  · intro D minL τ fuel node r g2 memo hml hres
    simp only [advance_inner, if_pos hml, hres]
  · intro D memo node ret
    simp [getResult, setResult, List.find?]

/-- Invariants of the result table that every entry written by
`advance_inner` maintains: both nodes are well-formed, the stored result
is one layer below its key, and a result stored for an empty key is
empty. -/
def wfMemo {D : Nat} (memo : Memo D) : Prop :=
  ∀ e ∈ memo, wf e.1 ∧ wf e.2 ∧ layer e.2 + 1 = layer e.1 ∧
    (population e.1 = 0 → population e.2 = 0)

theorem wfMemo_nil {D : Nat} : wfMemo ([] : Memo D) := by
  intro e he
  cases he

theorem getResult_mem {D : Nat} {memo : Memo D} {n r : CNode D}
    (h : getResult memo n = some r) : (n, r) ∈ memo := by
  simp only [getResult, Option.map_eq_some'] at h
  obtain ⟨e, he, her⟩ := h
  have h1 := List.find?_some he
  have h2 := List.mem_of_find?_eq_some he
  simp only [decide_eq_true_eq] at h1
  have : e = (n, r) := by
    cases e
    simp only at h1 her
    rw [h1, her]
  rw [← this]
  exact h2

theorem wfMemo_setResult {D : Nat} {memo : Memo D} {n r : CNode D}
    (hm : wfMemo memo) (h1 : wf n) (h2 : wf r) (h3 : layer r + 1 = layer n)
    (h4 : population n = 0 → population r = 0) : wfMemo (setResult memo n r) := by
  intro e he
  cases he with
  | head => exact ⟨h1, h2, h3, h4⟩
  | tail _ htail => exact hm e htail

theorem centeredInner_nonleaf_some {D : Nat} (f : BV D → CNode D) :
    ∃ m', centeredInner (.nonleaf f) = some m' := by
  cases hlo : f (lo D) with
  | leaf c0 =>
    refine ⟨CNode.leaf (innerCell f), ?_⟩
    simp [centeredInner, hlo]
  | nonleaf g0 =>
    refine ⟨CNode.nonleaf (innerChild f), ?_⟩
    simp [centeredInner, hlo]

theorem population_centeredInner_le :
    ∀ {D : Nat} (n m' : CNode D), centeredInner n = some m' →
      population m' ≤ population n := by
  intro D n m' h
  cases n with
  | leaf c => simp [centeredInner] at h
  | nonleaf f =>
    cases hlo : f (lo D) with
    | leaf c0 =>
      simp only [centeredInner, hlo] at h
      cases h
      refine Finset.sum_le_sum fun b _ => ?_
      cases hfb : f b with
      | leaf cb =>
        simp only [innerCell, hfb, population]
        exact le_trans (le_refl _) (Finset.single_le_sum (f := fun j =>
          if cb j = 0 then 0 else 1) (fun _ _ => Nat.zero_le _) (Finset.mem_univ (opp b)))
      | nonleaf g =>
        simp only [innerCell, hfb]
        exact Nat.zero_le _
    | nonleaf g0 =>
      simp only [centeredInner, hlo] at h
      cases h
      refine Finset.sum_le_sum fun b _ => ?_
      cases hfb : f b with
      | leaf cb =>
        simp only [innerChild, hfb, population_emptyNode]
        exact Nat.zero_le _
      | nonleaf g =>
        simp only [innerChild, hfb, population]
        exact Finset.single_le_sum (f := fun j => population (g j))
          (fun _ _ => Nat.zero_le _) (Finset.mem_univ (opp b))

theorem population_child_zero {D : Nat} {f : BV D → CNode D}
    (h : population (.nonleaf f) = 0) (b : BV D) : population (f b) = 0 := by
  simp only [population, Finset.sum_eq_zero_iff, Finset.mem_univ, true_implies] at h
  exact h b

theorem gq_spec {D : Nat} {f : BV D → CNode D} (hwf : wf (.nonleaf f))
    (hlay3 : 3 ≤ layer (.nonleaf f)) (q : Fin D → Nat) :
    wf (gq f q) ∧ layer (gq f q) + 2 = layer (.nonleaf f) := by
  obtain ⟨hwfc, hlay⟩ := hwf
  have hl1 : layer (f fun k => decide (2 ≤ q k)) = layer (f (lo D)) := hlay _
  have hl2 : 2 ≤ layer (f fun k => decide (2 ≤ q k)) := by
    simp only [layer] at hlay3
    omega
  obtain ⟨g, hg⟩ := layer_ge_two_nonleaf _ hl2
  have hwfg : wf (.nonleaf g) := hg ▸ hwfc _
  obtain ⟨hwfgc, hlayg⟩ := hwfg
  have : gq f q = g fun k => decide (q k % 2 = 1) := by
    simp only [gq, hg, childAt]
  rw [this]
  constructor
  · exact hwfgc _
  · have e1 : layer (g fun k => decide (q k % 2 = 1)) = layer (g (lo D)) := hlayg _
    have e2 : layer (CNode.nonleaf g) = layer (g (lo D)) + 1 := rfl
    rw [← hg] at e2
    simp only [layer] at hlay3 ⊢
    omega

theorem cubeIdx_lt {s : Nat} (hs : 1 ≤ s) :
    ∀ {D : Nat} (q : Fin D → Nat), (∀ k, q k < s) → cubeIdx s q < s ^ D := by
  intro D
  induction D with
  | zero =>
    intro q _
    simp [cubeIdx]
  | succ D ih =>
    intro q hq
    have hrec := ih (fun k => q k.succ) fun k => hq k.succ
    have hsum : cubeIdx s q = q 0 + s * cubeIdx s (fun k => q k.succ) := by
      rw [cubeIdx, Fin.sum_univ_succ]
      simp only [Fin.val_zero, pow_zero, mul_one, cubeIdx, Finset.mul_sum]
      congr 1
      refine Finset.sum_congr rfl fun k _ => ?_
      rw [Fin.val_succ, pow_succ]
      ring
    rw [hsum, pow_succ]
    have h0 := hq 0
    nlinarith [hrec, h0, hs]

theorem getD_mem_of_lt {α : Type} {l : List α} {i : Nat} (h : i < l.length) (d : α) :
    l.getD i d ∈ l := by
  rw [List.getD_eq_getElem l d h]
  exact List.getElem_mem h

theorem runSeq_spec {D : Nat} {step : CNode D → Memo D → Except StepPanic (CNode D × Memo D)}
    {P Q : CNode D → Prop}
    (hstep : ∀ n memo, P n → wfMemo memo →
      step n memo ≠ .error .assertGensNotOne ∧
      ∀ r m', step n memo = .ok (r, m') → Q r ∧ wfMemo m') :
    ∀ (ns : List (CNode D)) (memo : Memo D), (∀ n ∈ ns, P n) → wfMemo memo →
      runSeq step ns memo ≠ .error .assertGensNotOne ∧
      ∀ rs m', runSeq step ns memo = .ok (rs, m') →
        rs.length = ns.length ∧ (∀ x ∈ rs, Q x) ∧ wfMemo m' := by
  intro ns
  induction ns with
  | nil =>
    intro memo _ hM
    constructor
    · intro h
      exact Except.noConfusion h
    · intro rs m' h
      rw [runSeq] at h
      cases h
      exact ⟨rfl, by simp, hM⟩
  | cons n ns ih =>
    intro memo hP hM
    have hs := hstep n memo (hP n (List.mem_cons_self n ns)) hM
    cases h1 : step n memo with
    | error e =>
      have he : e ≠ .assertGensNotOne := by
        intro he
        exact hs.1 (by rw [h1, he])
      constructor
      · intro h
        simp only [runSeq, h1] at h
        cases h
        exact he rfl
      · intro rs m' h
        simp only [runSeq, h1] at h
        cases h
    | ok pr =>
      obtain ⟨r, memo'⟩ := pr
      obtain ⟨hQ, hM'⟩ := hs.2 r memo' h1
      obtain ⟨ih1, ih2⟩ := ih memo' (fun x hx => hP x (List.mem_cons_of_mem n hx)) hM'
      cases h2 : runSeq step ns memo' with
      | error e =>
        have he : e ≠ .assertGensNotOne := by
          intro he
          exact ih1 (by rw [h2, he])
        constructor
        · intro h
          simp only [runSeq, h1, h2] at h
          cases h
          exact he rfl
        · intro rs m' h
          simp only [runSeq, h1, h2] at h
          cases h
      | ok pr2 =>
        obtain ⟨rs, memo''⟩ := pr2
        obtain ⟨hl, hq, hm2⟩ := ih2 rs memo'' h2
        constructor
        · intro h
          simp only [runSeq, h1, h2] at h
          cases h
        · intro rs2 m2 h
          simp only [runSeq, h1, h2, Except.ok.injEq, Prod.mk.injEq] at h
          obtain ⟨h3, h4⟩ := h
          subst h3
          subst h4
          refine ⟨by simp [hl], ?_, hm2⟩
          intro x hx
          cases hx with
          | head => exact hQ
          | tail _ htail => exact hq x htail

theorem advance_compute_spec {D : Nat} (minL : Nat)
    (recur : CNode D → Nat → Memo D → Except StepPanic (CNode D × Memo D))
    (hminL : 2 ≤ minL)
    (hrec : ∀ (n : CNode D) (g : Nat) (m : Memo D), wf n → minL ≤ layer n →
      wfMemo m → g ≤ 2 ^ (layer n - minL) →
      recur n g m ≠ .error .assertGensNotOne ∧
      ∀ res m', recur n g m = .ok (res, m') →
        wf res ∧ layer res + 1 = layer n ∧ wfMemo m' ∧
        (population n = 0 → population res = 0))
    (node : CNode D) (gens : Nat) (memo : Memo D)
    (hwf : wf node) (hlayer : minL ≤ layer node) (hM : wfMemo memo)
    (hg : gens ≤ 2 ^ (layer node - minL)) :
    advance_compute minL recur node gens memo ≠ .error .assertGensNotOne ∧
    ∀ res memo', advance_compute minL recur node gens memo = .ok (res, memo') →
      wf res ∧ layer res + 1 = layer node ∧ wfMemo memo' ∧
      (population node = 0 → population res = 0) := by
  obtain ⟨f, rfl⟩ := layer_ge_two_nonleaf node (le_trans hminL hlayer)
  by_cases hg0 : gens = 0
  · obtain ⟨m', hm'⟩ := centeredInner_nonleaf_some f
    have hspec := wf_layer_centeredInner _ hwf m' hm'
    have hpop := population_centeredInner_le _ m' hm'
    have heq : advance_compute minL recur (.nonleaf f) gens memo = .ok (m', memo) := by
      simp only [advance_compute, if_pos hg0, hm']
    constructor
    · rw [heq]
      intro h
      cases h
    · intro res memo' h
      rw [heq] at h
      simp only [Except.ok.injEq, Prod.mk.injEq] at h
      obtain ⟨h1, h2⟩ := h
      subst h1
      subst h2
      exact ⟨hspec.1, hspec.2, hM, fun hp => by omega⟩
  by_cases hp0 : population (CNode.nonleaf f) = 0
  · have heq : advance_compute minL recur (.nonleaf f) gens memo = .ok (f (lo D), memo) := by
      simp only [advance_compute, if_neg hg0, if_pos hp0]
    constructor
    · rw [heq]
      intro h
      cases h
    · intro res memo' h
      rw [heq] at h
      simp only [Except.ok.injEq, Prod.mk.injEq] at h
      obtain ⟨h1, h2⟩ := h
      subst h1
      subst h2
      exact ⟨hwf.1 (lo D), by simp [layer], hM, fun hp => population_child_zero hp (lo D)⟩
  by_cases hlm : layer (CNode.nonleaf f) = minL
  · have h1 : 2 ^ (layer (CNode.nonleaf f) - minL) = 1 := by
      rw [hlm, Nat.sub_self, pow_zero]
    have hg1 : gens = 1 := by omega
    have heq : advance_compute minL recur (.nonleaf f) gens memo = .error .todoOneGen := by
      simp only [advance_compute, if_neg hg0, if_neg hp0, if_pos hlm, if_pos hg1]
    constructor
    · rw [heq]
      intro h
      injection h with h
      cases h
    · intro res memo' h
      rw [heq] at h
      cases h
  · have hL3 : 3 ≤ layer (CNode.nonleaf f) := by omega
    have hno2 : ¬ (layer (CNode.nonleaf f) - 1 ≤ 1) := by omega
    have hgqs := fun q => gq_spec hwf hL3 q
    have hh3 : ∀ x ∈ h3List f, wf x ∧ layer x + 1 = layer (CNode.nonleaf f) := by
      intro x hx
      simp only [h3List, List.mem_map, List.mem_range] at hx
      obtain ⟨i, hi, rfl⟩ := hx
      refine ⟨⟨fun b => (hgqs _).1, fun b => ?_⟩, ?_⟩
      · have ha := (hgqs fun k => cubePos 3 D i k + boolIdx b k).2
        have hb := (hgqs fun k => cubePos 3 D i k + boolIdx (lo D) k).2
        dsimp only
        omega
      · have hb := (hgqs fun k => cubePos 3 D i k + boolIdx (lo D) k).2
        have hLf : layer (CNode.nonleaf f) = layer (f (lo D)) + 1 := rfl
        simp only [layer]
        omega
    have hstep1 : ∀ n m, (wf n ∧ layer n + 1 = layer (CNode.nonleaf f)) → wfMemo m →
        recur n (gens / 2) m ≠ .error .assertGensNotOne ∧
        ∀ r m', recur n (gens / 2) m = .ok (r, m') →
          (wf r ∧ layer r + 2 = layer (CNode.nonleaf f)) ∧ wfMemo m' := by
      intro n m hP hM₀
      have hln : minL ≤ layer n := by omega
      have hsub : layer (CNode.nonleaf f) - minL = (layer n - minL) + 1 := by omega
      have h2p : 2 ^ (layer (CNode.nonleaf f) - minL) = 2 * 2 ^ (layer n - minL) := by
        rw [hsub, pow_succ]
        ring
      have hb : gens / 2 ≤ 2 ^ (layer n - minL) := by omega
      obtain ⟨hne, hok⟩ := hrec n (gens / 2) m hP.1 hln hM₀ hb
      refine ⟨hne, fun r m' hr => ?_⟩
      obtain ⟨hw, hl, hm', hp⟩ := hok r m' hr
      exact ⟨⟨hw, by omega⟩, hm'⟩
    have hrun1 := runSeq_spec hstep1 (h3List f) memo hh3 hM
    cases hr1 : runSeq (fun n m => recur n (gens / 2) m) (h3List f) memo with
    | error e =>
      have he : e ≠ .assertGensNotOne := by
        intro hh
        exact hrun1.1 (by rw [hr1, hh])
      have heq : advance_compute minL recur (.nonleaf f) gens memo = .error e := by
        simp only [advance_compute, if_neg hg0, if_neg hp0, if_neg hlm, if_neg hno2, hr1]
      constructor
      · rw [heq]
        intro h
        injection h with h
        exact he h
      · intro res memo' h
        rw [heq] at h
        cases h
    | ok pr =>
      obtain ⟨r3, memo₁⟩ := pr
      obtain ⟨hl3, hq3, hm3⟩ := hrun1.2 r3 memo₁ hr1
      have hlen3 : (h3List f).length = 3 ^ D := by simp [h3List]
      have hh2 : ∀ x ∈ h2List r3, wf x ∧ layer x + 1 = layer (CNode.nonleaf f) := by
        intro x hx
        simp only [h2List, List.mem_map, List.mem_range] at hx
        obtain ⟨i, hi, rfl⟩ := hx
        have hchild : ∀ b : BV D,
            wf (r3.getD (cubeIdx 3 fun k => cubePos 2 D i k + boolIdx b k) (emptyNode D 1)) ∧
            layer (r3.getD (cubeIdx 3 fun k => cubePos 2 D i k + boolIdx b k) (emptyNode D 1)) + 2 =
              layer (CNode.nonleaf f) := by
          intro b
          have hidx : cubeIdx 3 (fun k => cubePos 2 D i k + boolIdx b k) < 3 ^ D := by
            apply cubeIdx_lt (by norm_num)
            intro k
            have hc1 : cubePos 2 D i k < 2 := Nat.mod_lt _ (by norm_num)
            have hc2 : boolIdx b k ≤ 1 := by cases hbk : b k <;> simp [boolIdx, hbk]
            omega
          exact hq3 _ (getD_mem_of_lt (by rw [hl3, hlen3]; exact hidx) _)
        refine ⟨⟨fun b => (hchild b).1, fun b => ?_⟩, ?_⟩
        · have ha := (hchild b).2
          have hb := (hchild (lo D)).2
          dsimp only
          omega
        · have hb := (hchild (lo D)).2
          have hLf : layer (CNode.nonleaf f) = layer (f (lo D)) + 1 := rfl
          simp only [layer]
          omega
      have hstep2 : ∀ n m, (wf n ∧ layer n + 1 = layer (CNode.nonleaf f)) → wfMemo m →
          recur n (gens - gens / 2) m ≠ .error .assertGensNotOne ∧
          ∀ r m', recur n (gens - gens / 2) m = .ok (r, m') →
            (wf r ∧ layer r + 2 = layer (CNode.nonleaf f)) ∧ wfMemo m' := by
        intro n m hP hM₀
        have hln : minL ≤ layer n := by omega
        have hsub : layer (CNode.nonleaf f) - minL = (layer n - minL) + 1 := by omega
        have h2p : 2 ^ (layer (CNode.nonleaf f) - minL) = 2 * 2 ^ (layer n - minL) := by
          rw [hsub, pow_succ]
          ring
        have hb : gens - gens / 2 ≤ 2 ^ (layer n - minL) := by omega
        obtain ⟨hne, hok⟩ := hrec n (gens - gens / 2) m hP.1 hln hM₀ hb
        refine ⟨hne, fun r m' hr => ?_⟩
        obtain ⟨hw, hl, hm', hp⟩ := hok r m' hr
        exact ⟨⟨hw, by omega⟩, hm'⟩
      have hrun2 := runSeq_spec hstep2 (h2List r3) memo₁ hh2 hm3
      cases hr2 : runSeq (fun n m => recur n (gens - gens / 2) m) (h2List r3) memo₁ with
      | error e =>
        have he : e ≠ .assertGensNotOne := by
          intro hh
          exact hrun2.1 (by rw [hr2, hh])
        have heq : advance_compute minL recur (.nonleaf f) gens memo = .error e := by
          simp only [advance_compute, if_neg hg0, if_neg hp0, if_neg hlm, if_neg hno2, hr1, hr2]
        constructor
        · rw [heq]
          intro h
          injection h with h
          exact he h
        · intro res memo' h
          rw [heq] at h
          cases h
      | ok pr2 =>
        obtain ⟨r2, memo₂⟩ := pr2
        obtain ⟨hl2, hq2, hm4⟩ := hrun2.2 r2 memo₂ hr2
        have hlen2 : (h2List r3).length = 2 ^ D := by simp [h2List]
        have hchild2 : ∀ b : BV D,
            wf (r2.getD (cubeIdx 2 (boolIdx b)) (emptyNode D 1)) ∧
            layer (r2.getD (cubeIdx 2 (boolIdx b)) (emptyNode D 1)) + 2 =
              layer (CNode.nonleaf f) := by
          intro b
          have hidx : cubeIdx 2 (boolIdx b) < 2 ^ D := by
            apply cubeIdx_lt (by norm_num)
            intro k
            cases hbk : b k <;> simp [boolIdx, hbk]
          exact hq2 _ (getD_mem_of_lt (by rw [hl2, hlen2]; exact hidx) _)
        have heq : advance_compute minL recur (.nonleaf f) gens memo =
            .ok (.nonleaf fun b => r2.getD (cubeIdx 2 (boolIdx b)) (emptyNode D 1), memo₂) := by
          simp only [advance_compute, if_neg hg0, if_neg hp0, if_neg hlm, if_neg hno2, hr1, hr2]
        constructor
        · rw [heq]
          intro h
          cases h
        · intro res memo' h
          rw [heq] at h
          simp only [Except.ok.injEq, Prod.mk.injEq] at h
          obtain ⟨h1, h2⟩ := h
          subst h1
          subst h2
          refine ⟨⟨fun b => (hchild2 b).1, fun b => ?_⟩, ?_, hm4, fun hp => absurd hp hp0⟩
          · have ha := (hchild2 b).2
            have hb := (hchild2 (lo D)).2
            dsimp only
            omega
          · have hb := (hchild2 (lo D)).2
            have hLf : layer (CNode.nonleaf f) = layer (f (lo D)) + 1 := rfl
            simp only [layer]
            omega

theorem advance_inner_spec {D : Nat} (minL : Nat) (τ : TF D) (hminL : 2 ≤ minL) :
    ∀ (fuel : Nat) (node : CNode D) (gens : Nat) (memo : Memo D),
      wf node → minL ≤ layer node → wfMemo memo → gens ≤ 2 ^ (layer node - minL) →
      advance_inner minL τ fuel node gens memo ≠ .error .assertGensNotOne ∧
      ∀ res memo', advance_inner minL τ fuel node gens memo = .ok (res, memo') →
        wf res ∧ layer res + 1 = layer node ∧ wfMemo memo' ∧
        (population node = 0 → population res = 0) := by
  intro fuel
  induction fuel with
  | zero =>
    intro node gens memo _ _ _ _
    constructor
    · intro h
      simp [advance_inner] at h
    · intro res memo' h
      simp [advance_inner] at h
  | succ fuel ih =>
    intro node gens memo hwf hlay hM hg
    cases hget : getResult memo node with
    | some r =>
      have heq : advance_inner minL τ (fuel + 1) node gens memo = .ok (r, memo) := by
        simp only [advance_inner, if_pos hlay, hget]
      have hprops := hM _ (getResult_mem hget)
      constructor
      · rw [heq]
        intro h
        cases h
      · intro res memo' h
        rw [heq] at h
        simp only [Except.ok.injEq, Prod.mk.injEq] at h
        obtain ⟨h1, h2⟩ := h
        subst h1
        subst h2
        exact ⟨hprops.2.1, hprops.2.2.1, hM, hprops.2.2.2⟩
    | none =>
      have hcs := advance_compute_spec minL (advance_inner minL τ fuel) hminL ih
        node gens memo hwf hlay hM hg
      cases hc : advance_compute minL (advance_inner minL τ fuel) node gens memo with
      | error e =>
        have he : e ≠ .assertGensNotOne := by
          intro hh
          exact hcs.1 (by rw [hc, hh])
        have heq : advance_inner minL τ (fuel + 1) node gens memo = .error e := by
          simp only [advance_inner, if_pos hlay, hget, hc]
        constructor
        · rw [heq]
          intro h
          injection h with h
          exact he h
        · intro res memo' h
          rw [heq] at h
          cases h
      | ok pr =>
        obtain ⟨ret, memo₁⟩ := pr
        obtain ⟨hw, hl, hm1, hp⟩ := hcs.2 ret memo₁ hc
        have heq : advance_inner minL τ (fuel + 1) node gens memo =
            .ok (ret, setResult memo₁ node ret) := by
          simp only [advance_inner, if_pos hlay, hget, hc]
        constructor
        · rw [heq]
          intro h
          cases h
        · intro res memo' h
          rw [heq] at h
          simp only [Except.ok.injEq, Prod.mk.injEq] at h
          obtain ⟨h1, h2⟩ := h
          subst h1
          subst h2
          exact ⟨hw, hl, wfMemo_setResult hm1 hwf hw hl hp, hp⟩

theorem expandIter_shift {D : Nat} (t : NdTreeT D) :
    ∀ k, expandIter t.expand k = expandIter t (k + 1)
  | 0 => rfl
  | k + 1 => by
    simp only [expandIter, expandIter_shift t k]

theorem partialSum_shift {D : Nat} (t : NdTreeT D) :
    ∀ k, partialSum t (k + 1) = 2 ^ layer t.expand.root / 4 + partialSum t.expand k
  | 0 => by simp [partialSum, expandIter]
  | k + 1 => by
    rw [show partialSum t (k + 1 + 1) =
      partialSum t (k + 1) + 2 ^ layer (expandIter t (k + 1 + 1)).root / 4 from rfl]
    rw [partialSum_shift t k,
      show partialSum t.expand (k + 1) =
        partialSum t.expand k + 2 ^ layer (expandIter t.expand (k + 1)).root / 4 from rfl,
      expandIter_shift t (k + 1)]
    omega

/-- The expansion loop expands some number `k` of times, accumulating
exactly the partial sums of the per-expansion `len/4` increments, and
stops at the least `k` whose accumulated distance reaches the bound. -/
theorem expansion_spec {D : Nat} :
    ∀ (t : NdTreeT D) (dist minExp : Nat),
      ∃ k, (expansion t dist minExp).1 = expandIter t k ∧
        (expansion t dist minExp).2 = dist + partialSum t k ∧
        minExp ≤ dist + partialSum t k ∧
        ∀ j < k, dist + partialSum t j < minExp := by
  intro t dist minExp
  induction t, dist, minExp using expansion.induct with
  | case1 t dist minExp h ih =>
    obtain ⟨k', e1, e2, e3, e4⟩ := ih
    rw [expansion, dif_pos h]
    refine ⟨k' + 1, ?_, ?_, ?_, ?_⟩
    · rw [e1, expandIter_shift]
    · rw [e2, partialSum_shift]
      omega
    · rw [partialSum_shift]
      omega
    · intro j hj
      cases j with
      | zero => simpa [partialSum] using h
      | succ j' =>
        have := e4 j' (by omega)
        rw [partialSum_shift]
        omega
  | case2 t dist minExp h =>
    rw [expansion, dif_neg h]
    exact ⟨0, rfl, by simp [partialSum], by simp [partialSum]; omega, by omega⟩

/-- The accumulated expansion distance never exceeds half the side
length of the current root. -/
theorem expansion_dist_le {D : Nat} :
    ∀ (t : NdTreeT D) (dist minExp : Nat), dist ≤ 2 ^ layer t.root / 2 →
      (expansion t dist minExp).2 ≤ 2 ^ layer (expansion t dist minExp).1.root / 2 := by
  intro t dist minExp
  induction t, dist, minExp using expansion.induct with
  | case1 t dist minExp h ih =>
    intro hle
    rw [expansion, dif_pos h]
    apply ih
    obtain ⟨m, hm⟩ : ∃ m, layer t.root = m + 1 :=
      ⟨layer t.root - 1, by have := layer_pos t.root; omega⟩
    have hL : layer t.expand.root = m + 1 + 1 := by
      rw [NdTreeT.expand_layer, hm]
    rw [hL]
    rw [hm] at hle
    have e1 : (2:Nat) ^ (m + 1) = 2 ^ m * 2 := pow_succ 2 m
    have e2 : (2:Nat) ^ (m + 1 + 1) = 2 ^ m * 4 := by
      rw [pow_succ, pow_succ]
      ring
    have hp : 0 < 2 ^ m := Nat.pos_pow_of_pos m (by norm_num)
    omega
  | case2 t dist minExp h =>
    intro hle
    rw [expansion, dif_neg h]
    exact hle

/-- `minLayerGo` stops at the first layer from its start whose quarter
length reaches the radius. -/
theorem minLayerGo_spec (r : Nat) :
    ∀ l, l ≤ minLayerGo r l ∧ r ≤ 2 ^ minLayerGo r l / 4 ∧
      ∀ j, l ≤ j → j < minLayerGo r l → 2 ^ j / 4 < r := by
  intro l
  induction l using minLayerGo.induct (r := r) with
  | case1 l h ih =>
    obtain ⟨ih1, ih2, ih3⟩ := ih
    rw [minLayerGo, dif_pos h]
    refine ⟨by omega, ih2, ?_⟩
    intro j hj1 hj2
    rcases Nat.eq_or_lt_of_le hj1 with rfl | hlt
    · exact h
    · exact ih3 j (by omega) hj2
  | case2 l h =>
    rw [minLayerGo, dif_neg h]
    exact ⟨le_refl l, by omega, by omega⟩

/-- The minimum simulation layer equals `⌈log2 r⌉ + 2`. -/
theorem min_layer_eq (r : Nat) : min_layer r = Nat.clog 2 r + 2 := by
  obtain ⟨h1, h2, h3⟩ := minLayerGo_spec r 2
  rw [min_layer] at *
  set R := minLayerGo r 2 with hR
  have hpowR : 2 ^ R = 2 ^ (R - 2) * 4 := by
    conv_lhs => rw [show R = R - 2 + 2 by omega]
    rw [pow_add]
    norm_num
  have hle : r ≤ 2 ^ (R - 2) := by omega
  have hclog : Nat.clog 2 r ≤ R - 2 := (Nat.le_pow_iff_clog_le (by norm_num)).mp hle
  by_contra hne
  have hlt : Nat.clog 2 r + 2 < R := by omega
  have hj := h3 (Nat.clog 2 r + 2) (by omega) hlt
  have hc : r ≤ 2 ^ Nat.clog 2 r := Nat.le_pow_clog (by norm_num) r
  have hpowj : 2 ^ (Nat.clog 2 r + 2) = 2 ^ Nat.clog 2 r * 4 := by
    rw [pow_add]
    norm_num
  omega

/-- Claim C2's counterexample: at radius 1 and step size 4 the driver's
`min_expansion_distance` is `2^(0 + bits(4)) = 8`, not the claim's
`2^(⌈log2 1⌉ + ⌈log2 4⌉) = 4` (`bits(t) = ⌊log2 t⌋ + 1` exceeds
`⌈log2 t⌉` whenever `t` is a power of two). -/
theorem claim_C2_counterexample :
    min_expansion_distance 1 4 ≠ 2 ^ (Nat.clog 2 1 + Nat.clog 2 4) := by
  have h1 : Nat.clog 2 1 = 0 := Nat.clog_one_right 2
  have h4 : Nat.clog 2 4 = 2 := by
    rw [show (4:Nat) = 2 ^ 2 by norm_num, Nat.clog_pow 2 2 (by norm_num)]
  have hbits : bitsOf 4 = 3 := by
    rw [bitsOf, if_neg (by norm_num)]
    norm_num [Nat.log2]
  rw [min_expansion_distance, h1, h4, hbits]
  norm_num

/-- Claim C2 (corrected): the driver computes
`min_expansion_distance = 2^(⌈log2 r⌉ + bits(t))` where
`bits(t) = ⌊log2 t⌋ + 1` (not `⌈log2 t⌉`); it expands the tree until the
accumulated expansion distance — growing by `len(root)/4` after each
expansion — reaches at least that bound, stopping at the least such
count `k`, and then performs exactly one more expansion before calling
`advance_inner` on the root. -/
theorem claim_C2_expansion_driver {D : Nat} (r : Nat) (τ : TF D) (t : Int)
    (ht : 0 < t) (tree : NdTreeT D) (memo : Memo D) :
    min_expansion_distance r t.toNat =
      2 ^ (Nat.clog 2 r + (Nat.log2 t.toNat + 1)) ∧
    ∃ k, (expansion tree 0 (min_expansion_distance r t.toNat)).1 = expandIter tree k ∧
      min_expansion_distance r t.toNat ≤ partialSum tree k ∧
      (∀ j < k, partialSum tree j < min_expansion_distance r t.toNat) ∧
      step_driver r τ t tree memo =
        match advance_inner (min_layer r) τ (layer (expandIter tree (k + 1)).root + 1)
            (expandIter tree (k + 1)).root t.toNat memo with
        | .error e => .error e
        | .ok (newRoot, memo') =>
          .ok (((set_root_driver (expandIter tree (k + 1)) newRoot).shrink).1, memo') := by
  have htN : t.toNat ≠ 0 := by omega
  constructor
  · rw [min_expansion_distance, bitsOf, if_neg htN]
  · obtain ⟨k, e1, e2, e3, e4⟩ := expansion_spec tree 0 (min_expansion_distance r t.toNat)
    refine ⟨k, e1, by omega, fun j hj => by have := e4 j hj; omega, ?_⟩
    rw [step_driver, if_neg (by omega)]
    rw [show (expansion tree 0 (min_expansion_distance r t.toNat)).1.expand
      = expandIter tree (k + 1) from by rw [e1]; rfl]

theorem claim_C2_expansion_driver_witness :
    (0:Int) < 1 ∧ min_expansion_distance 1 (Int.toNat 1) =
      2 ^ (Nat.clog 2 1 + (Nat.log2 (Int.toNat 1) + 1)) :=
  ⟨by norm_num, (claim_C2_expansion_driver 1 (fun _ => (0:Nat)) 1 (by norm_num)
    (NdTreeT.new 1) []).1⟩

theorem claim_C1_result_ignores_generations_witness :
    2 ≤ layer (emptyNode 1 2) ∧
      getResult [((emptyNode 1 2 : CNode 1), emptyNode 1 1)] (emptyNode 1 2) =
        some (emptyNode 1 1) ∧
      advance_inner (D := 1) 2 (fun _ => 0) 1 (emptyNode 1 2) 5
        [(emptyNode 1 2, emptyNode 1 1)] =
        .ok (emptyNode 1 1, [(emptyNode 1 2, emptyNode 1 1)]) ∧
      getResult (setResult ([] : Memo 1) (emptyNode 1 2) (emptyNode 1 1)) (emptyNode 1 2) =
        some (emptyNode 1 1) :=
  ⟨by decide, rfl,
    claim_C1_result_ignores_generations.1 1 2 (fun _ => 0) 0 (emptyNode 1 2)
      (emptyNode 1 1) 5 [(emptyNode 1 2, emptyNode 1 1)] (by decide) rfl,
    claim_C1_result_ignores_generations.2 1 [] (emptyNode 1 2) (emptyNode 1 1)⟩

theorem wf_expandIter {D : Nat} (t : NdTreeT D) (hwf : wf t.root) :
    ∀ k, wf (expandIter t k).root
  | 0 => hwf
  | k + 1 => by
    have := wf_expandIter t hwf k
    simp only [expandIter]
    exact wf_expandRoot _ this

/-- The root handed to `advance_inner` by the driver (after the expansion
loop and the final extra expansion) is well-formed, is at or above the
minimum layer, and is large enough that the step size fits in the layers
above the minimum layer. -/
theorem step_precond {D : Nat} (r : Nat) (t : Int) (tree : NdTreeT D)
    (ht : ¬ t ≤ 0) (hwf : wf tree.root) :
    wf (expansion tree 0 (min_expansion_distance r t.toNat)).1.expand.root ∧
    min_layer r ≤ layer (expansion tree 0 (min_expansion_distance r t.toNat)).1.expand.root ∧
    t.toNat ≤ 2 ^ (layer (expansion tree 0 (min_expansion_distance r t.toNat)).1.expand.root -
      min_layer r) ∧
    2 ≤ min_layer r := by
  have htN : t.toNat ≠ 0 := by omega
  obtain ⟨k, e1, e2, e3, _⟩ := expansion_spec tree 0 (min_expansion_distance r t.toNat)
  have hdle := expansion_dist_le tree 0 (min_expansion_distance r t.toNat) (Nat.zero_le _)
  have hwfE : wf (expansion tree 0 (min_expansion_distance r t.toNat)).1.root := by
    rw [e1]
    exact wf_expandIter tree hwf k
  have hwf2 : wf (expansion tree 0 (min_expansion_distance r t.toNat)).1.expand.root :=
    wf_expandRoot _ hwfE
  have hL1pos := layer_pos (expansion tree 0 (min_expansion_distance r t.toNat)).1.root
  have hminE : min_expansion_distance r t.toNat ≤
      (expansion tree 0 (min_expansion_distance r t.toNat)).2 := by
    rw [e2]
    exact e3
  have hexp2 : (2:Nat) ^ (Nat.clog 2 r + bitsOf t.toNat) ≤
      2 ^ (layer (expansion tree 0 (min_expansion_distance r t.toNat)).1.root - 1) := by
    have h1 : (2:Nat) ^ (Nat.clog 2 r + bitsOf t.toNat) ≤
        2 ^ layer (expansion tree 0 (min_expansion_distance r t.toNat)).1.root / 2 :=
      le_trans hminE hdle
    have h2 : (2:Nat) ^ layer (expansion tree 0 (min_expansion_distance r t.toNat)).1.root =
        2 ^ (layer (expansion tree 0 (min_expansion_distance r t.toNat)).1.root - 1) * 2 := by
      conv_lhs => rw [show layer (expansion tree 0 (min_expansion_distance r t.toNat)).1.root =
        (layer (expansion tree 0 (min_expansion_distance r t.toNat)).1.root - 1) + 1 by omega]
      rw [pow_succ]
    omega
  have hab : Nat.clog 2 r + bitsOf t.toNat ≤
      layer (expansion tree 0 (min_expansion_distance r t.toNat)).1.root - 1 :=
    (Nat.pow_le_pow_iff_right (by norm_num)).mp hexp2
  have hminLle : min_layer r ≤
      layer (expansion tree 0 (min_expansion_distance r t.toNat)).1.expand.root := by
    rw [min_layer_eq, NdTreeT.expand_layer]
    omega
  have hbits : bitsOf t.toNat = Nat.log2 t.toNat + 1 := by rw [bitsOf, if_neg htN]
  have htlt : t.toNat < 2 ^ (Nat.log2 t.toNat + 1) :=
    (Nat.log2_lt htN).mp (Nat.lt_succ_self _)
  have hble : Nat.log2 t.toNat + 1 ≤
      layer (expansion tree 0 (min_expansion_distance r t.toNat)).1.expand.root -
        min_layer r := by
    rw [min_layer_eq, NdTreeT.expand_layer]
    omega
  have hgle : t.toNat ≤
      2 ^ (layer (expansion tree 0 (min_expansion_distance r t.toNat)).1.expand.root -
        min_layer r) :=
    le_trans (Nat.le_of_lt htlt) (Nat.pow_le_pow_right (by norm_num) hble)
  have hminL2 : 2 ≤ min_layer r := by
    rw [min_layer_eq]
    omega
  exact ⟨hwf2, hminLle, hgle, hminL2⟩

theorem population_expandIter {D : Nat} (t : NdTreeT D) :
    ∀ k, population (expandIter t k).root = population t.root
  | 0 => rfl
  | k + 1 => by
    simp only [expandIter]
    exact (population_expandRoot _).trans (population_expandIter t k)

/-- Claim C3 (confirmed): on a well-formed tree with a well-formed result
table, a step never trips the minimum-layer assertion
`assert_eq!(generations, 1)`: the driver's expansion loop plus the final
expansion make the root large enough that the halving recursion reaches
the minimum layer with exactly one generation left. -/
theorem claim_C3_min_layer_assertion {D : Nat} (r : Nat) (τ : TF D) (t : Int)
    (tree : NdTreeT D) (memo : Memo D) (hwf : wf tree.root) (hM : wfMemo memo) :
    step_driver r τ t tree memo ≠ .error .assertGensNotOne := by
  by_cases ht : t ≤ 0
  · rw [step_driver, if_pos ht]
    intro h
    injection h with h
    cases h
  · obtain ⟨hwf2, hminLle, hgle, hminL2⟩ := step_precond r t tree ht hwf
    have hspec := advance_inner_spec (min_layer r) τ hminL2
      (layer (expansion tree 0 (min_expansion_distance r t.toNat)).1.expand.root + 1)
      (expansion tree 0 (min_expansion_distance r t.toNat)).1.expand.root t.toNat memo
      hwf2 hminLle hM hgle
    cases hadv : advance_inner (min_layer r) τ
        (layer (expansion tree 0 (min_expansion_distance r t.toNat)).1.expand.root + 1)
        (expansion tree 0 (min_expansion_distance r t.toNat)).1.expand.root t.toNat memo with
    | error e =>
      have he : e ≠ .assertGensNotOne := by
        intro hh
        exact hspec.1 (by rw [hadv, hh])
      simp only [step_driver, if_neg ht, hadv]
      intro h
      injection h with h
      exact he h
    | ok pr =>
      obtain ⟨nr, m'⟩ := pr
      simp only [step_driver, if_neg ht, hadv]
      intro h
      cases h

theorem claim_C3_min_layer_assertion_witness :
    wf (NdTreeT.new 1).root ∧ wfMemo ([] : Memo 1) ∧
      step_driver 1 (fun _ => 0) 1 (NdTreeT.new 1) [] ≠ .error .assertGensNotOne :=
  ⟨wf_emptyNode 1 1, wfMemo_nil,
    claim_C3_min_layer_assertion 1 (fun _ => 0) 1 (NdTreeT.new 1) []
      (wf_emptyNode 1 1) wfMemo_nil⟩

/-- Claim C5 (confirmed): if the transition function maps the all-zero
neighborhood to 0 then advancing an empty well-formed node at or above
the minimum layer by any positive generation count succeeds and returns
an empty node one layer down, and stepping an empty well-formed tree by
any `t > 0` succeeds and leaves the tree with population 0.  (The empty
branch of `advance_inner_node` fires before any transition-function call,
so the hypothesis on the rule is never even consulted.) -/
theorem claim_C5_empty_invariance {D : Nat} (r : Nat) (τ : TF D)
    (hB0 : τ (fun _ => 0) = 0) :
    (∀ (minL fuel : Nat) (n : CNode D) (g : Nat) (memo : Memo D) (res : CNode D)
        (memo' : Memo D), 2 ≤ minL → wf n → minL ≤ layer n → wfMemo memo → 0 < g →
        g ≤ 2 ^ (layer n - minL) → population n = 0 →
        advance_inner minL τ fuel n g memo = .ok (res, memo') →
        population res = 0 ∧ layer res + 1 = layer n) ∧
    ∀ (t : Int) (tree : NdTreeT D) (memo : Memo D), 0 < t → wf tree.root →
      wfMemo memo → population tree.root = 0 →
      ∃ tree' memo', step_driver r τ t tree memo = .ok (tree', memo') ∧
        population tree'.root = 0 := by
  constructor
  · intro minL fuel n g memo res memo' hminL hwf hlay hM hg hgle hpop hadv
    obtain ⟨hw, hl, hm', hp⟩ :=
      (advance_inner_spec minL τ hminL fuel n g memo hwf hlay hM hgle).2 res memo' hadv
    exact ⟨hp hpop, hl⟩
  · intro t tree memo ht hwf hM hpop
    have ht' : ¬ t ≤ 0 := by omega
    obtain ⟨hwf2, hminLle, hgle, hminL2⟩ := step_precond r t tree ht' hwf
    have htN : t.toNat ≠ 0 := by omega
    obtain ⟨k, e1, _, _, _⟩ := expansion_spec tree 0 (min_expansion_distance r t.toNat)
    have hpop2 : population (expansion tree 0 (min_expansion_distance r t.toNat)).1.expand.root
        = 0 := by
      have h1 : population (expansion tree 0 (min_expansion_distance r t.toNat)).1.expand.root =
          population (expansion tree 0 (min_expansion_distance r t.toNat)).1.root :=
        population_expandRoot _
      rw [h1, e1, population_expandIter]
      exact hpop
    have hmain : ∃ res memo'', advance_inner (min_layer r) τ
        (layer (expansion tree 0 (min_expansion_distance r t.toNat)).1.expand.root + 1)
        (expansion tree 0 (min_expansion_distance r t.toNat)).1.expand.root t.toNat memo =
        .ok (res, memo'') ∧ population res = 0 ∧ wf res := by
      cases hget : getResult memo
          (expansion tree 0 (min_expansion_distance r t.toNat)).1.expand.root with
      | some res =>
        have hprops := hM _ (getResult_mem hget)
        refine ⟨res, memo, ?_, hprops.2.2.2 hpop2, hprops.2.1⟩
        simp only [advance_inner, if_pos hminLle, hget]
      | none =>
        obtain ⟨f, hf⟩ := layer_ge_two_nonleaf
          (expansion tree 0 (min_expansion_distance r t.toNat)).1.expand.root (by omega)
        have hpopf : population (CNode.nonleaf f) = 0 := by
          rw [← hf]
          exact hpop2
        have hwff : wf (CNode.nonleaf f) := by
          rw [← hf]
          exact hwf2
        have hcomp : advance_compute (min_layer r)
            (advance_inner (min_layer r) τ
              (layer (expansion tree 0 (min_expansion_distance r t.toNat)).1.expand.root))
            (expansion tree 0 (min_expansion_distance r t.toNat)).1.expand.root t.toNat memo =
            .ok (f (lo D), memo) := by
          rw [hf]
          simp only [advance_compute, if_neg htN, if_pos hpopf]
        refine ⟨f (lo D), setResult memo
          (expansion tree 0 (min_expansion_distance r t.toNat)).1.expand.root (f (lo D)),
          ?_, population_child_zero hpopf (lo D), hwff.1 (lo D)⟩
        simp only [advance_inner, if_pos hminLle, hget, hcomp]
    obtain ⟨res, memo'', hadv, hpr, hwr⟩ := hmain
    refine ⟨((set_root_driver
      (expansion tree 0 (min_expansion_distance r t.toNat)).1.expand res).shrink).1,
      memo'', ?_, ?_⟩
    · simp only [step_driver, if_neg ht', hadv]
    · have hsh := NdTreeT.shrink_spec (set_root_driver
        (expansion tree 0 (min_expansion_distance r t.toNat)).1.expand res) hwr
      rw [hsh.2.2.1]
      exact hpr

theorem claim_C5_empty_invariance_witness :
    (0:Int) < 1 ∧ wf (NdTreeT.new 1).root ∧ wfMemo ([] : Memo 1) ∧
      population (NdTreeT.new 1).root = 0 ∧
      ∃ tree' memo', step_driver 1 (fun _ => (0:Nat)) 1 (NdTreeT.new 1) [] =
        .ok (tree', memo') ∧ population tree'.root = 0 :=
  ⟨by norm_num, wf_emptyNode 1 1, wfMemo_nil, population_emptyNode 1 1,
    (claim_C5_empty_invariance 1 (fun _ => (0:Nat)) rfl).2 1 (NdTreeT.new 1) []
      (by norm_num) (wf_emptyNode 1 1) wfMemo_nil (population_emptyNode 1 1)⟩

end NDCell
